import Mathlib

/-!
# Bitwise operators of `BigInt` (`include/operators/bitwise.hpp`)

A shallow embedding of the bitwise-operator header of the BigInt library and a
verification of its specification against it.

* `std::vector<bool>` is a `List Bool`, index 0 being the least significant bit.
* `std::vector<bool>::at` is the checked access `bin[i]?`: an index out of
  range makes the surrounding function return `none` (the C++ code throws).
* In-place mutation of a vector is explicit state passing: the function
  returns the new vector.
* `long long` is a 64-bit two's-complement integer: an `Int` in
  `[-2^63, 2^63)`, its bit pattern being the value `% 2^64`.
* `size_t` is a 64-bit unsigned integer and `int` a 32-bit two's-complement
  integer: the conversion `(int)i` keeps the low 32 bits of `i`.
-/

namespace BigIntBitwise

/-! ## The `BigInt` collaborator -/

/-- Modelled from the spec: the `BigInt` class itself (`BigInt.hpp`) is not part
of the header under verification. It is a sign character (the code compares it
with the literals + and -) and a magnitude; the magnitude is a string of decimal
digits in the code and the natural number it denotes here. -/
structure BigInt where
  value : Nat
  sign : Char
deriving DecidableEq, Repr

/-- Modelled from the spec: the integer a `BigInt` denotes (sign and magnitude). -/
def BigInt.toInt (x : BigInt) : Int :=
  if x.sign = '-' then -(x.value : Int) else (x.value : Int)

/-- Modelled from the spec: construction of a `BigInt` from an integer; zero
carries the positive sign. -/
def BigInt.ofInt (z : Int) : BigInt :=
  { value := z.natAbs, sign := if z < 0 then '-' else '+' }

/-- Modelled from the spec: `BigInt::operator-()` (unary minus), exact. -/
def BigInt.neg (x : BigInt) : BigInt := BigInt.ofInt (-x.toInt)

/-- Modelled from the spec: `BigInt::operator*`, exact. -/
def BigInt.mul (x y : BigInt) : BigInt := BigInt.ofInt (x.toInt * y.toInt)

/-- Modelled from the spec: `BigInt::operator-` (binary), exact. -/
def BigInt.sub (x y : BigInt) : BigInt := BigInt.ofInt (x.toInt - y.toInt)

/-- Modelled from the spec: `BigInt::operator/`, integer division truncating
toward zero. -/
def BigInt.div (x y : BigInt) : BigInt := BigInt.ofInt (Int.tdiv x.toInt y.toInt)

/-- Modelled from the spec: `pow(base, exp)` of `functions/math.hpp`, the power
with a native exponent. For a negative exponent the model returns the integer
part of the power: 0, unless the base is 1 or -1. -/
def pow (base : Int) (exp : Int) : BigInt :=
  if 0 ≤ exp then BigInt.ofInt (base ^ exp.toNat)
  else BigInt.ofInt (if base.natAbs = 1 then base ^ exp.natAbs else 0)

/-! ## Native integers -/

/-- The constant `LLONG_MIN` of `<climits>`. -/
def LLONG_MIN : Int := -(2 ^ 63)

/-- The constant `LLONG_MAX` of `<climits>`. -/
def LLONG_MAX : Int := 2 ^ 63 - 1

/-- The constant `INT_MIN` of `<climits>`. -/
def INT_MIN : Int := -(2 ^ 31)

/-- The constant `INT_MAX` of `<climits>`. -/
def INT_MAX : Int := 2 ^ 31 - 1

/-- The 64-bit pattern of a `long long`. -/
def toBits64 (x : Int) : Nat := (x % 2 ^ 64).toNat

/-- The `long long` a 64-bit pattern stands for (two's complement). -/
def ofBits64 (n : Nat) : Int :=
  if n % 2 ^ 64 < 2 ^ 63 then ((n % 2 ^ 64 : Nat) : Int) else ((n % 2 ^ 64 : Nat) : Int) - 2 ^ 64

/-- The native `long long | long long`. -/
def native_or (x y : Int) : Int := ofBits64 (toBits64 x ||| toBits64 y)

/-- The native `long long & long long`. -/
def native_and (x y : Int) : Int := ofBits64 (toBits64 x &&& toBits64 y)

/-- The native `long long ^ long long`. -/
def native_xor (x y : Int) : Int := ofBits64 (toBits64 x ^^^ toBits64 y)

/-- The native `long long << long long`: defined for a shift count in `0..63`
(the bit pattern moves left, the bits shifted out are lost); any other count is
undefined behaviour, `none`. -/
def native_shl (x n : Int) : Option Int :=
  if 0 ≤ n ∧ n < 64 then some (ofBits64 (toBits64 x * 2 ^ n.toNat)) else none

/-- The native `long long >> long long`: defined for a shift count in `0..63`
(arithmetic shift: the floor of the quotient by the power of two); any other
count is undefined behaviour, `none`. -/
def native_shr (x n : Int) : Option Int :=
  if 0 ≤ n ∧ n < 64 then some (x / 2 ^ n.toNat) else none

/-- Modelled from the spec: `BigInt::to_long_long` of `functions/conversion.hpp`,
defined only when the value is in range. -/
def BigInt.to_long_long (x : BigInt) : Option Int :=
  if LLONG_MIN ≤ x.toInt ∧ x.toInt ≤ LLONG_MAX then some x.toInt else none

/-- Modelled from the spec: `BigInt::to_int` of `functions/conversion.hpp`,
defined only when the value is in range. -/
def BigInt.to_int (x : BigInt) : Option Int :=
  if INT_MIN ≤ x.toInt ∧ x.toInt ≤ INT_MAX then some x.toInt else none

/-! ## `decimal_to_binary`, `binary_to_decimal`, `twos_complement` -/

/-- The `while (quotient != 0)` loop of `decimal_to_binary`: push the parity of
the last decimal digit, halve the quotient. The first argument bounds the number
of iterations; the loop halves `quotient`, so `quotient` itself is enough
(`decimal_to_binary_loop_fuel`). -/
def decimal_to_binary_loop : Nat → Nat → List Bool → List Bool
  | 0, _, bin => bin
  | fuel + 1, quotient, bin =>
    if quotient ≠ 0 then
      decimal_to_binary_loop fuel (quotient / 2) (bin ++ [decide ((quotient % 10) % 2 = 1)])
    else bin

/-- The function `decimal_to_binary`: the bits of a magnitude, least significant first. -/
def decimal_to_binary (num : Nat) : List Bool :=
  decimal_to_binary_loop num num []

/-- The conversion `(int)i` of a `size_t` index to `int`: the low 32 bits of the
index, read as a two's complement number. -/
def int_of_size_t (i : Nat) : Int :=
  if i % 2 ^ 32 < 2 ^ 31 then ((i % 2 ^ 32 : Nat) : Int) else ((i % 2 ^ 32 : Nat) : Int) - 2 ^ 32

/-- The function `binary_to_decimal`: `num += bin.at(i) * pow(BigInt(2), (int)i)`
for `i` from `0` to `bin.size() - 1`. The power of 2 is never negative, so its
magnitude is taken; the result is the magnitude of `num`. -/
def binary_to_decimal (bin : List Bool) : Option Nat :=
  (List.range bin.length).foldlM
    (fun num i =>
      (bin[i]?).bind fun b => some (num + b.toNat * (pow 2 (int_of_size_t i)).value)) 0

/-- The `for` loop of `twos_complement` after the flip: a set bit is cleared and
the loop goes on, a clear bit is set and the function returns. The first
argument is the number of iterations left (`bin.size() - i`). -/
def twos_complement_loop : Nat → Nat → List Bool → Option (List Bool)
  | 0, _, bin => some bin
  | left + 1, i, bin =>
    match bin[i]? with
    | none => none
    | some true => twos_complement_loop left (i + 1) (bin.set i false)
    | some false => some (bin.set i true)

/-- The function `twos_complement`: `bin.flip()`, then add one with a ripple carry. -/
def twos_complement (bin : List Bool) : Option (List Bool) :=
  twos_complement_loop bin.length 0 (bin.map (fun b => !b))

/-! ## The operators -/

/-- The padding step shared by `operator|`, `operator&` and `operator^`: the
shorter vector is extended with zero bits at its end to the size of the longer. -/
def extend (lhs rhs : List Bool) : List Bool × List Bool :=
  if lhs.length < rhs.length then
    (lhs ++ List.replicate (rhs.length - lhs.length) false, rhs)
  else if lhs.length > rhs.length then
    (lhs, rhs ++ List.replicate (lhs.length - rhs.length) false)
  else (lhs, rhs)

/-- The elementwise loop shared by `operator|`, `operator&` and `operator^`:
`res.push_back(op(lhs.at(i), rhs.at(i)))` for `i` from `0` to `rhs.size() - 1`. -/
def elementwise (op : Bool → Bool → Bool) (lhs rhs : List Bool) : Option (List Bool) :=
  (List.range rhs.length).foldlM
    (fun res i => lhs[i]?.bind fun a => rhs[i]?.bind fun b => some (res ++ [op a b])) []

/-- The fast-path test `num >= LLONG_MIN && num <= LLONG_MAX && *this >= LLONG_MIN
&& *this <= LLONG_MAX`. -/
def in_long_long_range (self num : BigInt) : Bool :=
  decide (LLONG_MIN ≤ num.toInt) && decide (num.toInt ≤ LLONG_MAX) &&
    decide (LLONG_MIN ≤ self.toInt) && decide (self.toInt ≤ LLONG_MAX)

/-- The body of `BigInt::operator|` after the fast-path test. -/
def BigInt.or_slow (self num : BigInt) : Option BigInt := do
  let lhs := decimal_to_binary self.value
  let rhs := decimal_to_binary num.value
  let lhs1 := (extend lhs rhs).1
  let rhs1 := (extend lhs rhs).2
  let lhs2 ← if self.sign = '-' then twos_complement lhs1 else some lhs1
  let rhs2 ← if num.sign = '-' then twos_complement rhs1 else some rhs1
  let res ← elementwise (fun a b => a || b) lhs2 rhs2
  let temp := BigInt.ofInt 1
  if self.sign = '-' ∨ num.sign = '-' then
    let res1 ← twos_complement res
    let n ← binary_to_decimal res1
    some (temp.neg.mul (BigInt.ofInt n))
  else
    let n ← binary_to_decimal res
    some (temp.mul (BigInt.ofInt n))

/-- The operator `BigInt::operator|`. -/
def BigInt.or (self num : BigInt) : Option BigInt :=
  if in_long_long_range self num then do
    let a ← self.to_long_long
    let b ← num.to_long_long
    some (BigInt.ofInt (native_or a b))
  else self.or_slow num

/-- The body of `BigInt::operator&` after the fast-path test. -/
def BigInt.and_slow (self num : BigInt) : Option BigInt := do
  let lhs := decimal_to_binary self.value
  let rhs := decimal_to_binary num.value
  let lhs1 := (extend lhs rhs).1
  let rhs1 := (extend lhs rhs).2
  let lhs2 ← if self.sign = '-' then twos_complement lhs1 else some lhs1
  let rhs2 ← if num.sign = '-' then twos_complement rhs1 else some rhs1
  let res ← elementwise (fun a b => a && b) lhs2 rhs2
  let temp := BigInt.ofInt 1
  if self.sign = '-' ∧ num.sign = '-' then
    let res1 ← twos_complement res
    let n ← binary_to_decimal res1
    some (temp.neg.mul (BigInt.ofInt n))
  else
    let n ← binary_to_decimal res
    some (temp.mul (BigInt.ofInt n))

/-- The operator `BigInt::operator&`. -/
def BigInt.and (self num : BigInt) : Option BigInt :=
  if in_long_long_range self num then do
    let a ← self.to_long_long
    let b ← num.to_long_long
    some (BigInt.ofInt (native_and a b))
  else self.and_slow num

/-- The body of `BigInt::operator^` after the fast-path test. -/
def BigInt.xor_slow (self num : BigInt) : Option BigInt := do
  let lhs := decimal_to_binary self.value
  let rhs := decimal_to_binary num.value
  let lhs1 := (extend lhs rhs).1
  let rhs1 := (extend lhs rhs).2
  let lhs2 ← if self.sign = '-' then twos_complement lhs1 else some lhs1
  let rhs2 ← if num.sign = '-' then twos_complement rhs1 else some rhs1
  let res ← elementwise (fun a b => Bool.xor a b) lhs2 rhs2
  let temp := BigInt.ofInt 1
  if Bool.xor (decide (self.sign = '-')) (decide (num.sign = '-')) then
    let res1 ← twos_complement res
    let n ← binary_to_decimal res1
    some (temp.neg.mul (BigInt.ofInt n))
  else
    let n ← binary_to_decimal res
    some (temp.mul (BigInt.ofInt n))

/-- The operator `BigInt::operator^`. -/
def BigInt.xor (self num : BigInt) : Option BigInt :=
  if in_long_long_range self num then do
    let a ← self.to_long_long
    let b ← num.to_long_long
    some (BigInt.ofInt (native_xor a b))
  else self.xor_slow num

/-- The operator `BigInt::operator~`. -/
def BigInt.not (self : BigInt) : BigInt :=
  let temp := self
  if temp.sign = '+' then
    BigInt.sub { temp with sign := '-' } (BigInt.ofInt 1)
  else
    BigInt.sub { temp with sign := '+' } (BigInt.ofInt 1)

/-- The operator `BigInt::operator>>`. -/
def BigInt.shr (self num : BigInt) : Option BigInt :=
  if in_long_long_range self num then do
    let a ← self.to_long_long
    let b ← num.to_long_long
    let r ← native_shr a b
    some (BigInt.ofInt r)
  else do
    let n ← num.to_int
    some (self.div (pow 2 n))

/-- The operator `BigInt::operator<<`. -/
def BigInt.shl (self num : BigInt) : Option BigInt :=
  if in_long_long_range self num then do
    let a ← self.to_long_long
    let b ← num.to_long_long
    let r ← native_shl a b
    some (BigInt.ofInt r)
  else do
    let n ← num.to_int
    some (self.mul (pow 2 n))

/-! ## Reference functions for the proofs -/

/-- The magnitude a bit vector denotes: the sum of `bit[i] * 2^i`. -/
def val : List Bool → Nat
  | [] => 0
  | b :: l => b.toNat + 2 * val l

/-- Adding one to a bit vector with a ripple carry, the carry out of the last
position being dropped. -/
def increment : List Bool → List Bool
  | [] => []
  | true :: l => false :: increment l
  | false :: l => true :: l

/-- The sum `binary_to_decimal` has accumulated after `k` iterations of its loop. -/
def partial_sum (bin : List Bool) : Nat → Nat
  | 0 => 0
  | k + 1 => partial_sum bin k + (bin.getD k false).toNat * (pow 2 (int_of_size_t k)).value

/-- The working width of the bit-vector path for two operands: the length of the
longer of the two bit vectors. -/
def width (a b : Int) : Nat :=
  max (decimal_to_binary a.natAbs).length (decimal_to_binary b.natAbs).length


/-! ## Bit vectors and the magnitudes they denote -/

theorem val_append (l : List Bool) (b : Bool) :
    val (l ++ [b]) = val l + b.toNat * 2 ^ l.length := by
  induction l with
  | nil => simp [val]
  | cons a l ih => simp [val, ih, pow_succ]; ring

theorem val_lt (l : List Bool) : val l < 2 ^ l.length := by
  induction l with
  | nil => simp [val]
  | cons a l ih =>
    have : a.toNat ≤ 1 := Bool.toNat_le a
    simp only [val, List.length_cons, pow_succ]
    omega

theorem int_of_size_t_small {i : Nat} (h : i < 2 ^ 31) : int_of_size_t i = (i : Int) := by
  unfold int_of_size_t
  have e : i % 2 ^ 32 = i := Nat.mod_eq_of_lt (by omega)
  rw [e, if_pos h]

theorem pow_two_small {i : Nat} (h : i < 2 ^ 31) : (pow 2 (int_of_size_t i)).value = 2 ^ i := by
  rw [int_of_size_t_small h]
  unfold pow
  rw [if_pos (Int.ofNat_nonneg i)]
  show ((2 : Int) ^ (i : Int).toNat).natAbs = 2 ^ i
  rw [Int.toNat_ofNat, Int.natAbs_pow]
  rfl

theorem binary_to_decimal_take (bin : List Bool) (k : Nat) (hk : k ≤ bin.length) :
    (List.range k).foldlM
      (fun num i =>
        (bin[i]?).bind fun b => some (num + b.toNat * (pow 2 (int_of_size_t i)).value)) 0
      = some (partial_sum bin k) := by
  induction k with
  | zero => simp [partial_sum]
  | succ k ih =>
    have hk1 : k < bin.length := hk
    rw [List.range_succ, List.foldlM_append, ih (Nat.le_of_lt hk1)]
    simp [partial_sum, List.getElem?_eq_getElem hk1, List.getD_eq_getElem?_getD]

/-- The function `binary_to_decimal` returns a value on every vector. -/
theorem binary_to_decimal_total (bin : List Bool) :
    binary_to_decimal bin = some (partial_sum bin bin.length) :=
  binary_to_decimal_take bin bin.length (Nat.le_refl _)

theorem partial_sum_eq_val (bin : List Bool) (k : Nat) (hk : k ≤ bin.length)
    (h : k ≤ 2 ^ 31) : partial_sum bin k = val (bin.take k) := by
  induction k with
  | zero => simp [partial_sum, val]
  | succ k ih =>
    have hk1 : k < bin.length := hk
    rw [partial_sum, ih (Nat.le_of_lt hk1) (by omega), pow_two_small (by omega : k < 2 ^ 31),
      List.take_succ, List.getElem?_eq_getElem hk1]
    simp only [Option.toList, val_append, List.length_take, Nat.min_eq_left (Nat.le_of_lt hk1)]
    simp [List.getD_eq_getElem?_getD, List.getElem?_eq_getElem hk1]

theorem partial_sum_append (l r : List Bool) (k : Nat) (hk : k ≤ l.length) :
    partial_sum (l ++ r) k = partial_sum l k := by
  induction k with
  | zero => rfl
  | succ k ih =>
    have hk1 : k < l.length := hk
    rw [partial_sum, partial_sum, ih (Nat.le_of_lt hk1)]
    simp [List.getD_eq_getElem?_getD, List.getElem?_append_left hk1]

theorem partial_sum_replicate_false (n k : Nat) :
    partial_sum (List.replicate n false) k = 0 := by
  induction k with
  | zero => rfl
  | succ k ih =>
    rw [partial_sum, ih]
    by_cases h : k < n
    · simp [List.getD_eq_getElem?_getD, List.getElem?_replicate, h]
    · simp [List.getD_eq_getElem?_getD, List.getElem?_replicate, h]

/-- On a vector of at most `2^31` elements every index converts to `int`
unchanged, and `binary_to_decimal` returns the sum of `bit[i] * 2^i`. -/
theorem binary_to_decimal_eq (bin : List Bool) (h : bin.length ≤ 2 ^ 31) :
    binary_to_decimal bin = some (val bin) := by
  rw [binary_to_decimal_total, partial_sum_eq_val bin bin.length (Nat.le_refl _) h,
    List.take_length]

theorem decimal_to_binary_loop_val (fuel : Nat) :
    ∀ (q : Nat) (bin : List Bool), q ≤ fuel →
      val (decimal_to_binary_loop fuel q bin) = val bin + 2 ^ bin.length * q := by
  induction fuel with
  | zero => intro q bin h; simp [decimal_to_binary_loop, Nat.le_zero.mp h]
  | succ f ih =>
    intro q bin h
    unfold decimal_to_binary_loop
    split
    · rename_i hq
      rw [ih _ _ (by omega), val_append]
      simp only [List.length_append, List.length_singleton, pow_succ]
      have h2 : q % 10 % 2 = q % 2 := by omega
      rw [h2]
      rcases Nat.mod_two_eq_zero_or_one q with h0 | h1
      · simp [h0]
        have : q = 2 * (q / 2) := by omega
        nth_rewrite 2 [this]; ring
      · simp [h1]
        have : q = 2 * (q / 2) + 1 := by omega
        nth_rewrite 2 [this]; ring
    · rename_i hq
      simp at hq
      simp [hq]

theorem val_decimal_to_binary (m : Nat) : val (decimal_to_binary m) = m := by
  unfold decimal_to_binary
  rw [decimal_to_binary_loop_val m m [] (Nat.le_refl _)]
  simp [val]


/-! ## `twos_complement` -/

theorem length_increment (l : List Bool) : (increment l).length = l.length := by
  induction l with
  | nil => rfl
  | cons a l ih => cases a <;> simp [increment, ih]

theorem val_increment (l : List Bool) : val (increment l) = (val l + 1) % 2 ^ l.length := by
  induction l with
  | nil => simp [increment, val]
  | cons a l ih =>
    have hl := val_lt l
    cases a
    · simp only [increment, val, Bool.toNat_true, Bool.toNat_false, List.length_cons, pow_succ]
      rw [Nat.mod_eq_of_lt (by omega)]; omega
    · simp only [increment, val, Bool.toNat_true, Bool.toNat_false, List.length_cons, pow_succ, ih]
      have hp : 0 < 2 ^ l.length := Nat.two_pow_pos _
      rcases Nat.lt_or_ge (val l + 1) (2 ^ l.length) with h | h
      · rw [Nat.mod_eq_of_lt h, Nat.mod_eq_of_lt (by omega)]; omega
      · have h1 : val l + 1 = 2 ^ l.length := by omega
        rw [h1, Nat.mod_self]
        have h2 : 1 + 2 * val l + 1 = 2 ^ l.length * 2 := by omega
        rw [h2, Nat.mod_self]

theorem val_flip (l : List Bool) : val (l.map (fun b => !b)) = 2 ^ l.length - 1 - val l := by
  induction l with
  | nil => simp [val]
  | cons a l ih =>
    have hl := val_lt l
    cases a <;> simp only [List.map_cons, val, ih, List.length_cons, pow_succ, Bool.not_true,
      Bool.not_false, Bool.toNat_true, Bool.toNat_false] <;> omega

theorem twos_complement_loop_eq (suf : List Bool) :
    ∀ (pre : List Bool),
      twos_complement_loop suf.length pre.length (pre ++ suf) = some (pre ++ increment suf) := by
  induction suf with
  | nil => intro pre; simp [twos_complement_loop, increment]
  | cons a suf ih =>
    intro pre
    have hget : (pre ++ a :: suf)[pre.length]? = some a := by
      rw [List.getElem?_append_right (Nat.le_refl _)]; simp
    have hset : ∀ x, (pre ++ a :: suf).set pre.length x = pre ++ x :: suf := by
      intro x
      rw [List.set_append_right _ _ (Nat.le_refl _)]; simp
    simp only [List.length_cons, twos_complement_loop, hget]
    cases a
    · simp [hset, increment]
    · simp only [hset, increment]
      have := ih (pre ++ [false])
      simpa using this

/-- The function `twos_complement` never fails, and it is the flip followed by
an increment that drops the carry out of the last position. -/
theorem twos_complement_eq (bin : List Bool) :
    twos_complement bin = some (increment (bin.map (fun b => !b))) := by
  unfold twos_complement
  have := twos_complement_loop_eq (bin.map (fun b => !b)) []
  simpa using this

theorem val_twos_complement (bin : List Bool) :
    val (increment (bin.map (fun b => !b))) = (2 ^ bin.length - val bin) % 2 ^ bin.length := by
  rw [val_increment, val_flip, List.length_map]
  have := val_lt bin
  congr 1
  omega

/-! ## Padding and the elementwise loop -/

theorem val_append_replicate (l : List Bool) (k : Nat) :
    val (l ++ List.replicate k false) = val l := by
  induction l with
  | nil =>
    induction k with
    | zero => simp [val]
    | succ k ih => simp only [List.nil_append, List.replicate_succ, val] at ih ⊢; simp [ih, val]
  | cons a l ih => simp [val, ih]

theorem extend_length (lhs rhs : List Bool) :
    (extend lhs rhs).1.length = max lhs.length rhs.length ∧
    (extend lhs rhs).2.length = max lhs.length rhs.length := by
  unfold extend
  split
  · simp; omega
  · split
    · simp; omega
    · simp; omega

theorem extend_val (lhs rhs : List Bool) :
    val (extend lhs rhs).1 = val lhs ∧ val (extend lhs rhs).2 = val rhs := by
  unfold extend
  split
  · simp [val_append_replicate]
  · split <;> simp [val_append_replicate]

theorem elementwise_take (op : Bool → Bool → Bool) (lhs rhs : List Bool) (k : Nat)
    (hl : k ≤ lhs.length) (hr : k ≤ rhs.length) :
    (List.range k).foldlM
      (fun res i => lhs[i]?.bind fun a => rhs[i]?.bind fun b => some (res ++ [op a b])) []
      = some (List.zipWith op (lhs.take k) (rhs.take k)) := by
  induction k with
  | zero => simp
  | succ k ih =>
    have hl1 : k < lhs.length := hl
    have hr1 : k < rhs.length := hr
    rw [List.range_succ, List.foldlM_append, ih (Nat.le_of_lt hl1) (Nat.le_of_lt hr1)]
    rw [List.take_succ, List.take_succ, List.getElem?_eq_getElem hl1, List.getElem?_eq_getElem hr1]
    simp only [Option.toList]
    rw [List.zipWith_append]
    · simp [List.getElem?_eq_getElem hl1, List.getElem?_eq_getElem hr1]
    · simp [Nat.min_eq_left (Nat.le_of_lt hl1), Nat.min_eq_left (Nat.le_of_lt hr1)]

/-- On vectors of equal size the elementwise loop never fails and is `zipWith`. -/
theorem elementwise_eq (op : Bool → Bool → Bool) (lhs rhs : List Bool)
    (h : lhs.length = rhs.length) :
    elementwise op lhs rhs = some (List.zipWith op lhs rhs) := by
  unfold elementwise
  rw [elementwise_take op lhs rhs rhs.length (by omega) (Nat.le_refl _), List.take_length, ← h,
    List.take_length]

theorem val_zipWith_or (l r : List Bool) (h : l.length = r.length) :
    val (List.zipWith (fun a b => a || b) l r) = val l ||| val r := by
  induction l generalizing r with
  | nil => cases r <;> simp_all [val]
  | cons a l ih =>
    cases r with
    | nil => simp at h
    | cons b r =>
      simp only [List.length_cons, Nat.add_right_cancel_iff] at h
      simp only [List.zipWith_cons_cons, val, ih r h]
      apply Nat.eq_of_testBit_eq
      intro i
      cases i with
      | zero => cases a <;> cases b <;> simp [Nat.testBit_zero, Nat.add_mod]
      | succ i =>
        have e : ∀ (c : Bool) (x : Nat), (c.toNat + 2 * x) / 2 = x := by
          intro c x; cases c <;> simp only [Bool.toNat_true, Bool.toNat_false] <;> omega
        rw [Nat.testBit_or, Nat.testBit_succ, Nat.testBit_succ, Nat.testBit_succ, e, e, e,
          Nat.testBit_or]


/-! ## The `BigInt` collaborator, basic facts -/

theorem toInt_ofInt (z : Int) : (BigInt.ofInt z).toInt = z := by
  unfold BigInt.ofInt BigInt.toInt
  by_cases h : z < 0
  · simp only [h, if_true]; omega
  · simp only [h, if_false]
    have : ('+' = '-') = False := by decide
    simp only [this, if_false]; omega

theorem ofInt_value (z : Int) : (BigInt.ofInt z).value = z.natAbs := rfl

theorem ofInt_sign_neg (z : Int) : (BigInt.ofInt z).sign = '-' ↔ z < 0 := by
  unfold BigInt.ofInt
  by_cases h : z < 0 <;> simp [h]

theorem neg_one_mul_ofInt (k : Nat) :
    (BigInt.ofInt 1).neg.mul (BigInt.ofInt (k : Int)) = BigInt.ofInt (-(k : Int)) := by
  simp [BigInt.neg, BigInt.mul, toInt_ofInt]

theorem one_mul_ofInt (k : Nat) :
    (BigInt.ofInt 1).mul (BigInt.ofInt (k : Int)) = BigInt.ofInt (k : Int) := by
  simp [BigInt.mul, toInt_ofInt]

/-! ## Two's complement at a fixed width, on natural numbers -/

theorem ldiff_lt_two_pow {m k n : Nat} (hm : m < 2 ^ n) : Nat.ldiff m k < 2 ^ n := by
  apply Nat.lt_pow_two_of_testBit
  intro i hi
  have : m < 2 ^ i := Nat.lt_of_lt_of_le hm (Nat.pow_le_pow_right (by decide) hi)
  simp [Nat.testBit_ldiff, Nat.testBit_lt_two_pow this]

theorem testBit_of_lt_of_le {m n i : Nat} (hm : m < 2 ^ n) (hi : n ≤ i) :
    m.testBit i = false :=
  Nat.testBit_lt_two_pow (Nat.lt_of_lt_of_le hm (Nat.pow_le_pow_right (by decide) hi))

theorem compl_or_nat {m k n : Nat} (hm : m < 2 ^ n) (hk : k < 2 ^ n) :
    (2 ^ n - (m + 1)) ||| k = 2 ^ n - (Nat.ldiff m k + 1) := by
  apply Nat.eq_of_testBit_eq
  intro i
  rw [Nat.testBit_or, Nat.testBit_two_pow_sub_succ hm, Nat.testBit_two_pow_sub_succ
    (ldiff_lt_two_pow hm), Nat.testBit_ldiff]
  by_cases hi : i < n
  · simp [hi]
  · simp [hi, testBit_of_lt_of_le hk (Nat.le_of_not_lt hi)]

theorem compl_or_compl {m k n : Nat} (hm : m < 2 ^ n) (hk : k < 2 ^ n) :
    (2 ^ n - (m + 1)) ||| (2 ^ n - (k + 1)) = 2 ^ n - ((m &&& k) + 1) := by
  apply Nat.eq_of_testBit_eq
  intro i
  rw [Nat.testBit_or, Nat.testBit_two_pow_sub_succ hm, Nat.testBit_two_pow_sub_succ hk,
    Nat.testBit_two_pow_sub_succ (Nat.and_lt_two_pow _ hk), Nat.testBit_and]
  by_cases hi : i < n
  · simp [hi]
  · simp [hi]


/-! ## The pipeline in closed form -/

theorem partial_sum_length_eq_val (bin : List Bool) (h : bin.length ≤ 2 ^ 31) :
    partial_sum bin bin.length = val bin := by
  rw [partial_sum_eq_val bin bin.length (Nat.le_refl _) h, List.take_length]

/-- The bit-vector pipeline on two vectors of equal length, for any elementwise
operation `f` and any sign rule `c`: no step fails; the operands are complemented
when negative, combined, and the combination is complemented again when the sign
rule says negative. -/
theorem pipeline_lists (f : Bool → Bool → Bool) (L R : List Bool) (h : L.length = R.length)
    (sa sb c : Prop) [Decidable sa] [Decidable sb] [Decidable c] :
    (do
      let lhs2 ← if sa then twos_complement L else some L
      let rhs2 ← if sb then twos_complement R else some R
      let res ← elementwise f lhs2 rhs2
      if c then
        let res1 ← twos_complement res
        let n ← binary_to_decimal res1
        some ((BigInt.ofInt 1).neg.mul (BigInt.ofInt n))
      else
        let n ← binary_to_decimal res
        some ((BigInt.ofInt 1).mul (BigInt.ofInt n))) =
    some (
      if c then
        BigInt.ofInt (-((partial_sum
          (increment ((List.zipWith f (if sa then increment (L.map (fun b => !b)) else L)
            (if sb then increment (R.map (fun b => !b)) else R)).map (fun b => !b)))
          L.length : Nat) : Int))
      else
        BigInt.ofInt ((partial_sum
          (List.zipWith f (if sa then increment (L.map (fun b => !b)) else L)
            (if sb then increment (R.map (fun b => !b)) else R))
          L.length : Nat) : Int)) := by
  by_cases ha : sa <;> by_cases hb : sb <;> by_cases hc : c <;>
    simp [ha, hb, hc, twos_complement_eq, binary_to_decimal_total, elementwise_eq,
      length_increment, h, neg_one_mul_ofInt, one_mul_ofInt]

/-- The bit-vector pipeline in closed form on vectors of at most `2^31` elements,
for any elementwise operation `f` that acts on magnitudes as `g` and any sign rule
`c`: each operand is encoded at the working width (the magnitude, or its two's
complement when negative), and the combined magnitude is complemented again when
the sign rule says negative. -/
theorem pipeline_closed (f : Bool → Bool → Bool) (g : Nat → Nat → Nat)
    (hfg : ∀ l r : List Bool, l.length = r.length →
      val (List.zipWith f l r) = g (val l) (val r))
    (L R : List Bool) (h : L.length = R.length) (hn : L.length ≤ 2 ^ 31) (sa sb c : Prop)
    [Decidable sa] [Decidable sb] [Decidable c] :
    (do
      let lhs2 ← if sa then twos_complement L else some L
      let rhs2 ← if sb then twos_complement R else some R
      let res ← elementwise f lhs2 rhs2
      if c then
        let res1 ← twos_complement res
        let n ← binary_to_decimal res1
        some ((BigInt.ofInt 1).neg.mul (BigInt.ofInt n))
      else
        let n ← binary_to_decimal res
        some ((BigInt.ofInt 1).mul (BigInt.ofInt n))) =
    some (
      let A := if sa then (2 ^ L.length - val L) % 2 ^ L.length else val L
      let B := if sb then (2 ^ L.length - val R) % 2 ^ L.length else val R
      if c then BigInt.ofInt (-(((2 ^ L.length - g A B) % 2 ^ L.length : Nat) : Int))
      else BigInt.ofInt ((g A B : Nat) : Int)) := by
  have hR : R.length ≤ 2 ^ 31 := h ▸ hn
  have hb2d : ∀ X : List Bool, X.length = R.length → binary_to_decimal X = some (val X) :=
    fun X hX => binary_to_decimal_eq X (hX ▸ hR)
  by_cases ha : sa <;> by_cases hb : sb <;> by_cases hc : c <;>
    simp [ha, hb, hc, twos_complement_eq, hb2d, elementwise_eq, length_increment,
      h, hfg, val_twos_complement, neg_one_mul_ofInt, one_mul_ofInt]

theorem or_slow_closed (self num : BigInt)
    (hw : max (decimal_to_binary self.value).length (decimal_to_binary num.value).length
      ≤ 2 ^ 31) :
    self.or_slow num = some (
      let n := max (decimal_to_binary self.value).length (decimal_to_binary num.value).length
      let A := if self.sign = '-' then (2 ^ n - self.value) % 2 ^ n else self.value
      let B := if num.sign = '-' then (2 ^ n - num.value) % 2 ^ n else num.value
      if self.sign = '-' ∨ num.sign = '-' then
        BigInt.ofInt (-(((2 ^ n - (A ||| B)) % 2 ^ n : Nat) : Int))
      else BigInt.ofInt ((A ||| B : Nat) : Int)) := by
  have hl := extend_length (decimal_to_binary self.value) (decimal_to_binary num.value)
  have hv := extend_val (decimal_to_binary self.value) (decimal_to_binary num.value)
  rw [val_decimal_to_binary, val_decimal_to_binary] at hv
  have hp := pipeline_closed (fun a b => a || b) (fun x y => x ||| y) val_zipWith_or
    (extend (decimal_to_binary self.value) (decimal_to_binary num.value)).1
    (extend (decimal_to_binary self.value) (decimal_to_binary num.value)).2
    (by rw [hl.1, hl.2]) (by rw [hl.1]; exact hw)
    (self.sign = '-') (num.sign = '-') (self.sign = '-' ∨ num.sign = '-')
  rw [hl.1, hv.1, hv.2] at hp
  exact hp

theorem magnitude_lt (self num : BigInt) :
    self.value < 2 ^ max (decimal_to_binary self.value).length (decimal_to_binary num.value).length ∧
    num.value < 2 ^ max (decimal_to_binary self.value).length (decimal_to_binary num.value).length := by
  have h1 := val_lt (decimal_to_binary self.value)
  have h2 := val_lt (decimal_to_binary num.value)
  rw [val_decimal_to_binary] at h1 h2
  constructor
  · exact Nat.lt_of_lt_of_le h1 (Nat.pow_le_pow_right (by decide) (Nat.le_max_left _ _))
  · exact Nat.lt_of_lt_of_le h2 (Nat.pow_le_pow_right (by decide) (Nat.le_max_right _ _))

theorem ldiff_le (m k : Nat) : Nat.ldiff m k ≤ m :=
  Nat.le_of_testBit (by intro i; simp only [Nat.testBit_ldiff, Bool.and_eq_true]; exact fun h => h.1)

/-- The bit-vector pipeline of `operator|` computes the bitwise OR of the two's
complement representations, for operands of any sign whose bit vectors have at
most `2^31` elements. -/
theorem or_slow_eq (a b : Int) (hw : width a b ≤ 2 ^ 31) :
    (BigInt.ofInt a).or_slow (BigInt.ofInt b) = some (BigInt.ofInt (Int.lor a b)) := by
  rw [or_slow_closed (BigInt.ofInt a) (BigInt.ofInt b) hw]
  have hm := magnitude_lt (BigInt.ofInt a) (BigInt.ofInt b)
  simp only [ofInt_value, ofInt_sign_neg] at hm ⊢
  generalize max (decimal_to_binary a.natAbs).length (decimal_to_binary b.natAbs).length = n at hm ⊢
  obtain ⟨ha, hb⟩ := hm
  have hpos : 0 < 2 ^ n := Nat.two_pow_pos n
  cases a with
  | ofNat m =>
    have hm0 : ¬ ((Int.ofNat m) < 0) := by simp
    have em : (Int.ofNat m).natAbs = m := rfl
    rw [em] at ha ⊢
    cases b with
    | ofNat k =>
      have hk0 : ¬ ((Int.ofNat k) < 0) := by simp
      have ek : (Int.ofNat k).natAbs = k := rfl
      rw [ek] at hb ⊢
      simp only [hm0, hk0, or_self, if_false, Int.lor, Int.natAbs_ofNat]
    | negSucc k =>
      have hk0 : Int.negSucc k < 0 := Int.negSucc_lt_zero k
      simp only [Int.natAbs_ofNat, Int.natAbs_negSucc, Nat.succ_eq_add_one] at ha hb
      simp only [hm0, hk0, or_true, if_true, if_false, Int.lor, Int.natAbs_ofNat,
        Int.natAbs_negSucc, Nat.succ_eq_add_one]
      have hk : k < 2 ^ n := by omega
      have hd := ldiff_le k m
      rw [Nat.mod_eq_of_lt (by omega : 2 ^ n - (k + 1) < 2 ^ n), Nat.lor_comm,
        compl_or_nat hk ha]
      rw [show 2 ^ n - (2 ^ n - (Nat.ldiff k m + 1)) = Nat.ldiff k m + 1 by omega,
        Nat.mod_eq_of_lt (by omega)]
      rfl
  | negSucc m =>
    have hm0 : Int.negSucc m < 0 := Int.negSucc_lt_zero m
    cases b with
    | ofNat k =>
      have hk0 : ¬ ((Int.ofNat k) < 0) := by simp
      have ek : (Int.ofNat k).natAbs = k := rfl
      rw [ek] at hb ⊢
      simp only [Int.natAbs_ofNat, Int.natAbs_negSucc, Nat.succ_eq_add_one] at ha hb
      simp only [hm0, hk0, true_or, if_true, if_false, Int.lor, Int.natAbs_ofNat,
        Int.natAbs_negSucc, Nat.succ_eq_add_one]
      have hm1 : m < 2 ^ n := by omega
      have hd := ldiff_le m k
      rw [Nat.mod_eq_of_lt (by omega : 2 ^ n - (m + 1) < 2 ^ n), compl_or_nat hm1 hb]
      rw [show 2 ^ n - (2 ^ n - (Nat.ldiff m k + 1)) = Nat.ldiff m k + 1 by omega,
        Nat.mod_eq_of_lt (by omega)]
      rfl
    | negSucc k =>
      have hk0 : Int.negSucc k < 0 := Int.negSucc_lt_zero k
      simp only [Int.natAbs_negSucc, Nat.succ_eq_add_one] at ha hb
      simp only [hm0, hk0, or_self, if_true, Int.lor, Int.natAbs_negSucc, Nat.succ_eq_add_one]
      have hm1 : m < 2 ^ n := by omega
      have hk1 : k < 2 ^ n := by omega
      have hd : m &&& k ≤ m := Nat.and_le_left
      rw [Nat.mod_eq_of_lt (by omega : 2 ^ n - (m + 1) < 2 ^ n),
        Nat.mod_eq_of_lt (by omega : 2 ^ n - (k + 1) < 2 ^ n), compl_or_compl hm1 hk1]
      rw [show 2 ^ n - (2 ^ n - ((m &&& k) + 1)) = (m &&& k) + 1 by omega,
        Nat.mod_eq_of_lt (by omega)]
      rfl


/-! ## The native operations on `long long` -/

theorem toBits64_ofNat {m : Nat} (h : m < 2 ^ 63) : toBits64 (Int.ofNat m) = m := by
  unfold toBits64
  have : (Int.ofNat m) % 2 ^ 64 = (m : Int) := by
    have : (Int.ofNat m) = (m : Int) := rfl
    omega
  rw [this]; rfl

theorem toBits64_negSucc {m : Nat} (h : m < 2 ^ 63) :
    toBits64 (Int.negSucc m) = 2 ^ 64 - (m + 1) := by
  unfold toBits64
  have e : Int.negSucc m = -((m : Int) + 1) := rfl
  have : (Int.negSucc m) % 2 ^ 64 = ((2 ^ 64 - (m + 1) : Nat) : Int) := by
    omega
  rw [this]; rfl

theorem ofBits64_small {r : Nat} (h : r < 2 ^ 63) : ofBits64 r = (r : Int) := by
  unfold ofBits64
  have : r % 2 ^ 64 = r := Nat.mod_eq_of_lt (by omega)
  rw [this, if_pos h]

theorem ofBits64_big {d : Nat} (h : d < 2 ^ 63) :
    ofBits64 (2 ^ 64 - (d + 1)) = Int.negSucc d := by
  unfold ofBits64
  have : (2 ^ 64 - (d + 1)) % 2 ^ 64 = 2 ^ 64 - (d + 1) := Nat.mod_eq_of_lt (by omega)
  rw [this, if_neg (by omega)]
  have e : Int.negSucc d = -((d : Int) + 1) := rfl
  omega

theorem in_long_long_iff (z : Int) :
    (LLONG_MIN ≤ z ∧ z ≤ LLONG_MAX) ↔
      (∃ m : Nat, m < 2 ^ 63 ∧ z = Int.ofNat m) ∨ (∃ m : Nat, m < 2 ^ 63 ∧ z = Int.negSucc m) := by
  unfold LLONG_MIN LLONG_MAX
  constructor
  · intro h
    cases z with
    | ofNat m => left; exact ⟨m, by have : Int.ofNat m = (m : Int) := rfl; omega, rfl⟩
    | negSucc m =>
      right; exact ⟨m, by have : Int.negSucc m = -((m : Int) + 1) := rfl; omega, rfl⟩
  · rintro (⟨m, hm, rfl⟩ | ⟨m, hm, rfl⟩)
    · have : Int.ofNat m = (m : Int) := rfl
      omega
    · have : Int.negSucc m = -((m : Int) + 1) := rfl
      omega

/-- The native `|` on two `long long` values is the bitwise OR of their two's
complement representations. -/
theorem native_or_eq (a b : Int) (ha : LLONG_MIN ≤ a ∧ a ≤ LLONG_MAX)
    (hb : LLONG_MIN ≤ b ∧ b ≤ LLONG_MAX) : native_or a b = Int.lor a b := by
  have h64 : ∀ {x : Nat}, x < 2 ^ 63 → x < 2 ^ 64 := fun h => by omega
  rcases (in_long_long_iff a).mp ha with ⟨m, hm, rfl⟩ | ⟨m, hm, rfl⟩ <;>
    rcases (in_long_long_iff b).mp hb with ⟨k, hk, rfl⟩ | ⟨k, hk, rfl⟩
  · rw [native_or, toBits64_ofNat hm, toBits64_ofNat hk, ofBits64_small (Nat.or_lt_two_pow hm hk)]
    rfl
  · have hd := ldiff_le k m
    rw [native_or, toBits64_ofNat hm, toBits64_negSucc hk, Nat.lor_comm,
      compl_or_nat (h64 hk) (h64 hm), ofBits64_big (by omega)]
    rfl
  · have hd := ldiff_le m k
    rw [native_or, toBits64_negSucc hm, toBits64_ofNat hk,
      compl_or_nat (h64 hm) (h64 hk), ofBits64_big (by omega)]
    rfl
  · have hd : m &&& k ≤ m := Nat.and_le_left
    rw [native_or, toBits64_negSucc hm, toBits64_negSucc hk,
      compl_or_compl (h64 hm) (h64 hk), ofBits64_big (by omega)]
    rfl

theorem or_eq (a b : Int) (hw : width a b ≤ 2 ^ 31) :
    (BigInt.ofInt a).or (BigInt.ofInt b) = some (BigInt.ofInt (Int.lor a b)) := by
  unfold BigInt.or
  split
  · rename_i h
    simp only [in_long_long_range, toInt_ofInt, Bool.and_eq_true, decide_eq_true_eq] at h
    obtain ⟨⟨⟨h1, h2⟩, h3⟩, h4⟩ := h
    simp [BigInt.to_long_long, toInt_ofInt, h1, h2, h3, h4, native_or_eq a b ⟨h3, h4⟩ ⟨h1, h2⟩]
  · exact or_slow_eq a b hw


/-! ## `operator~` -/

theorem not_eq (x : Int) : (BigInt.ofInt x).not = BigInt.ofInt (-x - 1) := by
  have hc : ('-' = '+') = False := by decide
  have hc2 : ('+' = '-') = False := by decide
  have h1 : (BigInt.ofInt 1).toInt = 1 := toInt_ofInt 1
  unfold BigInt.not BigInt.sub
  rw [h1]
  by_cases h : x < 0
  · have e : (({ BigInt.ofInt x with sign := '+' } : BigInt)).toInt = -x := by
      simp only [BigInt.toInt, hc2, if_false, BigInt.ofInt]; omega
    have s : (BigInt.ofInt x).sign = '-' := (ofInt_sign_neg x).mpr h
    simp only [s, hc, if_false, e]
  · have e : (({ BigInt.ofInt x with sign := '-' } : BigInt)).toInt = -x := by
      simp only [BigInt.toInt, if_true, BigInt.ofInt]; omega
    have s : (BigInt.ofInt x).sign = '+' := by simp only [BigInt.ofInt, h, if_false]
    simp only [s, if_true, e]

/-! ## The loop of `decimal_to_binary` ends -/

/-- The bound on the iterations of the loop of `decimal_to_binary` is never the
reason the loop stops: any two bounds that are at least the quotient give the
same vector. -/
theorem decimal_to_binary_loop_fuel (f1 : Nat) :
    ∀ (f2 q : Nat) (bin : List Bool), q ≤ f1 → q ≤ f2 →
      decimal_to_binary_loop f1 q bin = decimal_to_binary_loop f2 q bin := by
  induction f1 with
  | zero =>
    intro f2 q bin h1 _
    have hq : q = 0 := Nat.le_zero.mp h1
    subst hq
    cases f2 <;> simp [decimal_to_binary_loop]
  | succ f1 ih =>
    intro f2 q bin h1 h2
    by_cases hq : q = 0
    · subst hq
      cases f2 <;> simp [decimal_to_binary_loop]
    · cases f2 with
      | zero => omega
      | succ f2 =>
        simp only [decimal_to_binary_loop, ne_eq, hq, not_false_eq_true, if_true]
        exact ih f2 (q / 2) _ (by omega) (by omega)


/-! ## The shifts outside the fast path -/

theorem not_in_range_of_gt (x n : Int) (hx : LLONG_MAX < x) :
    in_long_long_range (BigInt.ofInt x) (BigInt.ofInt n) = false := by
  simp only [in_long_long_range, toInt_ofInt, Bool.and_eq_false_iff, decide_eq_false_iff_not]
  right; omega

/-- Beyond the `long long` range `operator<<` multiplies by the power of two. -/
theorem shl_big (x n : Int) (hx : LLONG_MAX < x) (hn : 0 ≤ n ∧ n ≤ INT_MAX) :
    (BigInt.ofInt x).shl (BigInt.ofInt n) = some (BigInt.ofInt (x * 2 ^ n.toNat)) := by
  have hmin : INT_MIN ≤ n := by unfold INT_MIN; omega
  simp [BigInt.shl, not_in_range_of_gt x n hx, BigInt.to_int, toInt_ofInt, hn.2, hmin,
    BigInt.mul, pow, hn.1]

/-- Beyond the `long long` range `operator>>` divides by the power of two. -/
theorem shr_big (x n : Int) (hx : LLONG_MAX < x) (hn : 0 ≤ n ∧ n ≤ INT_MAX) :
    (BigInt.ofInt x).shr (BigInt.ofInt n) = some (BigInt.ofInt (x / 2 ^ n.toNat)) := by
  have hmin : INT_MIN ≤ n := by unfold INT_MIN; omega
  have hx0 : 0 ≤ x := by unfold LLONG_MAX at hx; omega
  have hd : Int.tdiv x (2 ^ n.toNat) = x / 2 ^ n.toNat :=
    Int.tdiv_eq_ediv hx0 (by positivity)
  simp [BigInt.shr, not_in_range_of_gt x n hx, BigInt.to_int, toInt_ofInt, hn.2, hmin,
    BigInt.div, pow, hd, hn.1]

/-! ## More on `twos_complement` -/

theorem val_injective (l : List Bool) :
    ∀ r : List Bool, l.length = r.length → val l = val r → l = r := by
  induction l with
  | nil => intro r h _; cases r with
    | nil => rfl
    | cons b r => simp at h
  | cons a l ih =>
    intro r h hv
    cases r with
    | nil => simp at h
    | cons b r =>
      simp only [List.length_cons, Nat.add_right_cancel_iff] at h
      simp only [val] at hv
      have hb : a = b ∧ val l = val r := by
        cases a <;> cases b <;> simp only [Bool.toNat_true, Bool.toNat_false] at hv <;>
          first
            | exact ⟨rfl, by omega⟩
            | (exfalso; omega)
      rw [hb.1, ih r h hb.2]

theorem length_twos_complement (bin : List Bool) :
    (increment (bin.map (fun b => !b))).length = bin.length := by
  rw [length_increment, List.length_map]

theorem twos_complement_twice (bin : List Bool) :
    (twos_complement bin).bind twos_complement = some bin := by
  rw [twos_complement_eq, Option.some_bind, twos_complement_eq]
  congr 1
  apply val_injective
  · rw [length_twos_complement, length_twos_complement]
  · rw [val_twos_complement, length_twos_complement, val_twos_complement]
    have h := val_lt bin
    rcases Nat.eq_zero_or_pos (val bin) with h0 | hp
    · rw [h0]; simp
    · rw [Nat.mod_eq_of_lt (by omega : 2 ^ bin.length - val bin < 2 ^ bin.length)]
      rw [show 2 ^ bin.length - (2 ^ bin.length - val bin) = val bin by omega]
      exact Nat.mod_eq_of_lt h

theorem val_replicate_false (n : Nat) : val (List.replicate n false) = 0 := by
  have := val_append_replicate [] n
  simpa [val] using this

theorem twos_complement_zeros (n : Nat) :
    twos_complement (List.replicate n false) = some (List.replicate n false) := by
  rw [twos_complement_eq]
  congr 1
  apply val_injective
  · rw [length_twos_complement]
  · rw [val_twos_complement, val_replicate_false, List.length_replicate]; simp

/-! ## The sign of `operator|` -/

theorem lor_neg_iff (a b : Int) : Int.lor a b < 0 ↔ (a < 0 ∨ b < 0) := by
  cases a with
  | ofNat m =>
    have hm : ¬ (Int.ofNat m < 0) := by simp
    cases b with
    | ofNat k =>
      have hk : ¬ (Int.ofNat k < 0) := by simp
      simp only [Int.lor, hm, hk, or_self, iff_false]
      exact Int.not_lt.mpr (Int.ofNat_nonneg _)
    | negSucc k => simp [Int.lor, Int.negSucc_lt_zero]
  | negSucc m =>
    cases b with
    | ofNat k => simp [Int.lor, Int.negSucc_lt_zero]
    | negSucc k => simp [Int.lor, Int.negSucc_lt_zero]

/-! ## Commutativity -/

theorem in_long_long_range_comm (x y : BigInt) :
    in_long_long_range x y = in_long_long_range y x := by
  unfold in_long_long_range
  cases decide (LLONG_MIN ≤ y.toInt) <;> cases decide (y.toInt ≤ LLONG_MAX) <;>
    cases decide (LLONG_MIN ≤ x.toInt) <;> cases decide (x.toInt ≤ LLONG_MAX) <;> rfl

theorem native_or_comm (x y : Int) : native_or x y = native_or y x := by
  unfold native_or; rw [Nat.lor_comm]

theorem native_and_comm (x y : Int) : native_and x y = native_and y x := by
  unfold native_and; rw [Nat.land_comm]

theorem native_xor_comm (x y : Int) : native_xor x y = native_xor y x := by
  unfold native_xor; rw [Nat.xor_comm]

theorem extend_swap (l r : List Bool) :
    (extend l r).1 = (extend r l).2 ∧ (extend l r).2 = (extend r l).1 := by
  unfold extend
  rcases Nat.lt_trichotomy l.length r.length with h | h | h
  · have h1 : ¬ r.length < l.length := by omega
    have h2 : r.length > l.length := h
    simp [h, h1, h2]
  · have h1 : ¬ l.length < r.length := by omega
    have h2 : ¬ r.length < l.length := by omega
    have h3 : ¬ l.length > r.length := by omega
    have h4 : ¬ r.length > l.length := by omega
    simp [h1, h2, h3, h4]
  · have h1 : ¬ l.length < r.length := by omega
    have h2 : l.length > r.length := h
    simp [h, h1, h2]

theorem zipWith_comm_of (f : Bool → Bool → Bool) (hf : ∀ a b, f a b = f b a) :
    ∀ l r : List Bool, List.zipWith f l r = List.zipWith f r l := by
  intro l
  induction l with
  | nil => intro r; cases r <;> rfl
  | cons a l ih =>
    intro r
    cases r with
    | nil => rfl
    | cons b r => simp only [List.zipWith_cons_cons, hf a b, ih r]

theorem pipeline_comm (f : Bool → Bool → Bool) (hf : ∀ a b, f a b = f b a)
    (L R : List Bool) (h : L.length = R.length) (sa sb c d : Prop)
    [Decidable sa] [Decidable sb] [Decidable c] [Decidable d] (hcd : c ↔ d) :
    (do
      let lhs2 ← if sa then twos_complement L else some L
      let rhs2 ← if sb then twos_complement R else some R
      let res ← elementwise f lhs2 rhs2
      if c then
        let res1 ← twos_complement res
        let n ← binary_to_decimal res1
        some ((BigInt.ofInt 1).neg.mul (BigInt.ofInt n))
      else
        let n ← binary_to_decimal res
        some ((BigInt.ofInt 1).mul (BigInt.ofInt n))) =
    (do
      let lhs2 ← if sb then twos_complement R else some R
      let rhs2 ← if sa then twos_complement L else some L
      let res ← elementwise f lhs2 rhs2
      if d then
        let res1 ← twos_complement res
        let n ← binary_to_decimal res1
        some ((BigInt.ofInt 1).neg.mul (BigInt.ofInt n))
      else
        let n ← binary_to_decimal res
        some ((BigInt.ofInt 1).mul (BigInt.ofInt n)) : Option BigInt) := by
  rw [pipeline_lists f L R h sa sb c, pipeline_lists f R L h.symm sb sa d]
  rw [zipWith_comm_of f hf (if sb then increment (R.map (fun b => !b)) else R)
    (if sa then increment (L.map (fun b => !b)) else L), h]
  by_cases hc : c
  · rw [if_pos hc, if_pos (hcd.mp hc)]
  · rw [if_neg hc, if_neg (fun hd => hc (hcd.mpr hd))]

theorem or_slow_comm (x y : BigInt) : x.or_slow y = y.or_slow x := by
  have hl := extend_length (decimal_to_binary x.value) (decimal_to_binary y.value)
  have hs := extend_swap (decimal_to_binary y.value) (decimal_to_binary x.value)
  simp only [BigInt.or_slow]
  rw [hs.1, hs.2]
  exact pipeline_comm (fun a b => a || b) Bool.or_comm _ _ (by rw [hl.1, hl.2]) _ _ _ _ Or.comm

theorem and_slow_comm (x y : BigInt) : x.and_slow y = y.and_slow x := by
  have hl := extend_length (decimal_to_binary x.value) (decimal_to_binary y.value)
  have hs := extend_swap (decimal_to_binary y.value) (decimal_to_binary x.value)
  simp only [BigInt.and_slow]
  rw [hs.1, hs.2]
  exact pipeline_comm (fun a b => a && b) Bool.and_comm _ _ (by rw [hl.1, hl.2]) _ _ _ _ And.comm

theorem xor_slow_comm (x y : BigInt) : x.xor_slow y = y.xor_slow x := by
  have hl := extend_length (decimal_to_binary x.value) (decimal_to_binary y.value)
  have hs := extend_swap (decimal_to_binary y.value) (decimal_to_binary x.value)
  simp only [BigInt.xor_slow]
  rw [hs.1, hs.2]
  exact pipeline_comm (fun a b => Bool.xor a b) Bool.xor_comm _ _ (by rw [hl.1, hl.2]) _ _ _ _
    (by rw [Bool.xor_comm])

theorem or_slow_some (x y : BigInt) : ∃ r, x.or_slow y = some r := by
  have hl := extend_length (decimal_to_binary x.value) (decimal_to_binary y.value)
  exact ⟨_, pipeline_lists (fun a b => a || b) _ _ (by rw [hl.1, hl.2]) _ _ _⟩

theorem and_slow_some (x y : BigInt) : ∃ r, x.and_slow y = some r := by
  have hl := extend_length (decimal_to_binary x.value) (decimal_to_binary y.value)
  exact ⟨_, pipeline_lists (fun a b => a && b) _ _ (by rw [hl.1, hl.2]) _ _ _⟩

theorem xor_slow_some (x y : BigInt) : ∃ r, x.xor_slow y = some r := by
  have hl := extend_length (decimal_to_binary x.value) (decimal_to_binary y.value)
  exact ⟨_, pipeline_lists (fun a b => Bool.xor a b) _ _ (by rw [hl.1, hl.2]) _ _ _⟩

theorem fast_path_comm (f : Int → Int → Int) (hf : ∀ a b, f a b = f b a) (x y : BigInt) :
    (do
      let a ← x.to_long_long
      let b ← y.to_long_long
      some (BigInt.ofInt (f a b))) =
    (do
      let a ← y.to_long_long
      let b ← x.to_long_long
      some (BigInt.ofInt (f a b)) : Option BigInt) := by
  cases x.to_long_long <;> cases y.to_long_long <;> simp [hf]

theorem or_comm_all (x y : BigInt) : x.or y = y.or x := by
  unfold BigInt.or
  rw [in_long_long_range_comm x y, or_slow_comm x y, fast_path_comm native_or native_or_comm x y]

theorem and_comm_all (x y : BigInt) : x.and y = y.and x := by
  unfold BigInt.and
  rw [in_long_long_range_comm x y, and_slow_comm x y, fast_path_comm native_and native_and_comm x y]

theorem xor_comm_all (x y : BigInt) : x.xor y = y.xor x := by
  unfold BigInt.xor
  rw [in_long_long_range_comm x y, xor_slow_comm x y, fast_path_comm native_xor native_xor_comm x y]

/-! ## The native `&` and `^` -/

theorem and_compl_nat {m k n : Nat} (hm : m < 2 ^ n) (hk : k < 2 ^ n) :
    m &&& (2 ^ n - (k + 1)) = Nat.ldiff m k := by
  apply Nat.eq_of_testBit_eq
  intro i
  rw [Nat.testBit_and, Nat.testBit_two_pow_sub_succ hk, Nat.testBit_ldiff]
  by_cases hi : i < n
  · simp [hi]
  · simp [hi, testBit_of_lt_of_le hm (Nat.le_of_not_lt hi)]

theorem compl_and_compl {m k n : Nat} (hm : m < 2 ^ n) (hk : k < 2 ^ n) :
    (2 ^ n - (m + 1)) &&& (2 ^ n - (k + 1)) = 2 ^ n - ((m ||| k) + 1) := by
  apply Nat.eq_of_testBit_eq
  intro i
  rw [Nat.testBit_and, Nat.testBit_two_pow_sub_succ hm, Nat.testBit_two_pow_sub_succ hk,
    Nat.testBit_two_pow_sub_succ (Nat.or_lt_two_pow hm hk), Nat.testBit_or]
  by_cases hi : i < n
  · simp [hi]
  · simp [hi]

theorem xor_compl_nat {m k n : Nat} (hm : m < 2 ^ n) (hk : k < 2 ^ n) :
    m ^^^ (2 ^ n - (k + 1)) = 2 ^ n - ((m ^^^ k) + 1) := by
  apply Nat.eq_of_testBit_eq
  intro i
  rw [Nat.testBit_xor, Nat.testBit_two_pow_sub_succ hk,
    Nat.testBit_two_pow_sub_succ (Nat.xor_lt_two_pow hm hk), Nat.testBit_xor]
  by_cases hi : i < n
  · simp [hi]
  · simp [hi, testBit_of_lt_of_le hm (Nat.le_of_not_lt hi)]

theorem compl_xor_compl {m k n : Nat} (hm : m < 2 ^ n) (hk : k < 2 ^ n) :
    (2 ^ n - (m + 1)) ^^^ (2 ^ n - (k + 1)) = m ^^^ k := by
  apply Nat.eq_of_testBit_eq
  intro i
  rw [Nat.testBit_xor, Nat.testBit_two_pow_sub_succ hm, Nat.testBit_two_pow_sub_succ hk,
    Nat.testBit_xor]
  by_cases hi : i < n
  · simp [hi]
  · simp [hi, testBit_of_lt_of_le hm (Nat.le_of_not_lt hi),
      testBit_of_lt_of_le hk (Nat.le_of_not_lt hi)]

/-- The native `&` on two `long long` values is the bitwise AND of their two's
complement representations. -/
theorem native_and_eq (a b : Int) (ha : LLONG_MIN ≤ a ∧ a ≤ LLONG_MAX)
    (hb : LLONG_MIN ≤ b ∧ b ≤ LLONG_MAX) : native_and a b = Int.land a b := by
  have h64 : ∀ {x : Nat}, x < 2 ^ 63 → x < 2 ^ 64 := fun h => by omega
  rcases (in_long_long_iff a).mp ha with ⟨m, hm, rfl⟩ | ⟨m, hm, rfl⟩ <;>
    rcases (in_long_long_iff b).mp hb with ⟨k, hk, rfl⟩ | ⟨k, hk, rfl⟩
  · rw [native_and, toBits64_ofNat hm, toBits64_ofNat hk,
      ofBits64_small (Nat.and_lt_two_pow _ hk)]
    rfl
  · have hd := ldiff_le m k
    rw [native_and, toBits64_ofNat hm, toBits64_negSucc hk, and_compl_nat (h64 hm) (h64 hk),
      ofBits64_small (by omega)]
    rfl
  · have hd := ldiff_le k m
    rw [native_and, toBits64_negSucc hm, toBits64_ofNat hk, Nat.land_comm,
      and_compl_nat (h64 hk) (h64 hm), ofBits64_small (by omega)]
    rfl
  · have hd : m ||| k < 2 ^ 63 := Nat.or_lt_two_pow hm hk
    rw [native_and, toBits64_negSucc hm, toBits64_negSucc hk,
      compl_and_compl (h64 hm) (h64 hk), ofBits64_big hd]
    rfl

/-- The native `^` on two `long long` values is the bitwise XOR of their two's
complement representations. -/
theorem native_xor_eq (a b : Int) (ha : LLONG_MIN ≤ a ∧ a ≤ LLONG_MAX)
    (hb : LLONG_MIN ≤ b ∧ b ≤ LLONG_MAX) : native_xor a b = Int.xor a b := by
  have h64 : ∀ {x : Nat}, x < 2 ^ 63 → x < 2 ^ 64 := fun h => by omega
  rcases (in_long_long_iff a).mp ha with ⟨m, hm, rfl⟩ | ⟨m, hm, rfl⟩ <;>
    rcases (in_long_long_iff b).mp hb with ⟨k, hk, rfl⟩ | ⟨k, hk, rfl⟩
  · rw [native_xor, toBits64_ofNat hm, toBits64_ofNat hk,
      ofBits64_small (Nat.xor_lt_two_pow hm hk)]
    rfl
  · have hd : m ^^^ k < 2 ^ 63 := Nat.xor_lt_two_pow hm hk
    rw [native_xor, toBits64_ofNat hm, toBits64_negSucc hk, xor_compl_nat (h64 hm) (h64 hk),
      ofBits64_big hd]
    rfl
  · have hd : k ^^^ m < 2 ^ 63 := Nat.xor_lt_two_pow hk hm
    rw [native_xor, toBits64_negSucc hm, toBits64_ofNat hk, Nat.xor_comm,
      xor_compl_nat (h64 hk) (h64 hm), ofBits64_big hd, Nat.xor_comm]
    rfl
  · rw [native_xor, toBits64_negSucc hm, toBits64_negSucc hk,
      compl_xor_compl (h64 hm) (h64 hk), ofBits64_small (Nat.xor_lt_two_pow hm hk)]
    rfl

/-! ## The fast path -/

theorem in_range_of_bounds (a b : Int) (ha : LLONG_MIN ≤ a ∧ a ≤ LLONG_MAX)
    (hb : LLONG_MIN ≤ b ∧ b ≤ LLONG_MAX) :
    in_long_long_range (BigInt.ofInt a) (BigInt.ofInt b) = true := by
  simp [in_long_long_range, toInt_ofInt, ha.1, ha.2, hb.1, hb.2]

theorem to_long_long_ofInt (a : Int) (ha : LLONG_MIN ≤ a ∧ a ≤ LLONG_MAX) :
    (BigInt.ofInt a).to_long_long = some a := by
  simp [BigInt.to_long_long, toInt_ofInt, ha.1, ha.2]

theorem fast_path (a b : Int) (ha : LLONG_MIN ≤ a ∧ a ≤ LLONG_MAX)
    (hb : LLONG_MIN ≤ b ∧ b ≤ LLONG_MAX) :
    (BigInt.ofInt a).or (BigInt.ofInt b) = some (BigInt.ofInt (native_or a b)) ∧
    (BigInt.ofInt a).and (BigInt.ofInt b) = some (BigInt.ofInt (native_and a b)) ∧
    (BigInt.ofInt a).xor (BigInt.ofInt b) = some (BigInt.ofInt (native_xor a b)) ∧
    (BigInt.ofInt a).shl (BigInt.ofInt b) = (native_shl a b).map BigInt.ofInt ∧
    (BigInt.ofInt a).shr (BigInt.ofInt b) = (native_shr a b).map BigInt.ofInt := by
  have hr := in_range_of_bounds a b ha hb
  have h1 := to_long_long_ofInt a ha
  have h2 := to_long_long_ofInt b hb
  refine ⟨?_, ?_, ?_, ?_, ?_⟩
  · simp [BigInt.or, hr, h1, h2]
  · simp [BigInt.and, hr, h1, h2]
  · simp [BigInt.xor, hr, h1, h2]
  · simp only [BigInt.shl, hr, if_true, h1, h2, Option.bind_eq_bind, Option.some_bind]
    cases native_shl a b <;> rfl
  · simp only [BigInt.shr, hr, if_true, h1, h2, Option.bind_eq_bind, Option.some_bind]
    cases native_shr a b <;> rfl

/-! ## The length of `decimal_to_binary` -/

theorem decimal_to_binary_loop_zero (fuel : Nat) (bin : List Bool) :
    decimal_to_binary_loop fuel 0 bin = bin := by
  cases fuel <;> simp [decimal_to_binary_loop]

theorem decimal_to_binary_loop_last (fuel : Nat) :
    ∀ (q : Nat) (bin : List Bool), 0 < q → q ≤ fuel →
      ∃ l, decimal_to_binary_loop fuel q bin = bin ++ l ++ [true] := by
  induction fuel with
  | zero => intro q bin h1 h2; omega
  | succ f ih =>
    intro q bin h1 h2
    have hq : q ≠ 0 := by omega
    simp only [decimal_to_binary_loop, ne_eq, hq, not_false_eq_true, if_true]
    by_cases h : q / 2 = 0
    · have q1 : q = 1 := by omega
      subst q1
      refine ⟨[], ?_⟩
      simp [decimal_to_binary_loop_zero]
    · obtain ⟨l, hl⟩ := ih (q / 2) (bin ++ [decide (q % 10 % 2 = 1)]) (by omega) (by omega)
      refine ⟨decide (q % 10 % 2 = 1) :: l, ?_⟩
      rw [hl]; simp

theorem decimal_to_binary_succ (m : Nat) : ∃ l, decimal_to_binary (m + 1) = l ++ [true] := by
  obtain ⟨l, hl⟩ := decimal_to_binary_loop_last (m + 1) (m + 1) [] (by omega) (Nat.le_refl _)
  exact ⟨l, by rw [decimal_to_binary, hl]; simp⟩

theorem length_of_last_true (l : List Bool) :
    (l ++ [true]).length = Nat.size (val (l ++ [true])) := by
  have h1 := val_lt (l ++ [true])
  have h2 : 2 ^ l.length ≤ val (l ++ [true]) := by rw [val_append]; simp
  apply Nat.le_antisymm
  · have := (Nat.lt_size (m := l.length) (n := val (l ++ [true]))).mpr h2
    simpa using this
  · exact Nat.size_le.mpr h1

theorem length_decimal_to_binary (m : Nat) : (decimal_to_binary m).length = Nat.size m := by
  cases m with
  | zero => simp [decimal_to_binary, decimal_to_binary_loop]
  | succ m =>
    obtain ⟨l, hl⟩ := decimal_to_binary_succ m
    have h := length_of_last_true l
    rw [← hl, val_decimal_to_binary] at h
    exact h

theorem size_eq_clog (m : Nat) : Nat.size m = Nat.clog 2 (m + 1) := by
  apply Nat.le_antisymm
  · apply Nat.size_le.mpr
    have := Nat.le_pow_clog (by decide : 1 < 2) (m + 1)
    omega
  · apply (Nat.le_pow_iff_clog_le (by decide : 1 < 2)).mp
    have := Nat.lt_size_self m
    omega

/-- On a vector that is empty or ends in a set bit, `decimal_to_binary` undoes
the magnitude the vector denotes. -/
theorem decimal_to_binary_val (s : List Bool) (h : s = [] ∨ s.getLast? = some true) :
    decimal_to_binary (val s) = s := by
  rcases h with h | h
  · subst h; rfl
  · obtain ⟨l, hl⟩ := List.getLast?_eq_some_iff.mp h
    apply val_injective
    · rw [length_decimal_to_binary, hl, length_of_last_true]
    · exact val_decimal_to_binary _

/-! ## The bit vectors of the pipeline -/

theorem val_eq_sum (s : List Bool) :
    val s = ∑ i in Finset.range s.length, (s.getD i false).toNat * 2 ^ i := by
  induction s using List.reverseRecOn with
  | nil => simp [val]
  | append_singleton l b ih =>
    rw [val_append, List.length_append, List.length_singleton, Finset.sum_range_succ, ih]
    congr 1
    · apply Finset.sum_congr rfl
      intro i hi
      have hi1 : i < l.length := Finset.mem_range.mp hi
      simp [List.getD_eq_getElem?_getD, List.getElem?_append_left hi1]
    · simp [List.getD_eq_getElem?_getD]

theorem prepared_operand (l : List Bool) (c : Prop) [Decidable c] :
    ∃ l2, (if c then twos_complement l else some l) = some l2 ∧ l2.length = l.length := by
  by_cases h : c
  · exact ⟨_, by rw [if_pos h, twos_complement_eq], length_twos_complement l⟩
  · exact ⟨l, by rw [if_neg h], rfl⟩

theorem length_zipWith_same (op : Bool → Bool → Bool) (l r : List Bool)
    (h : l.length = r.length) : (List.zipWith op l r).length = l.length := by
  simp [h]

/-! ## The working width -/

theorem length_le_iff (m n : Nat) : (decimal_to_binary m).length ≤ n ↔ m < 2 ^ n := by
  rw [length_decimal_to_binary]; exact Nat.size_le

theorem width_le_iff (a b : Int) (n : Nat) :
    width a b ≤ n ↔ (a.natAbs < 2 ^ n ∧ b.natAbs < 2 ^ n) := by
  unfold width
  rw [Nat.max_le, length_le_iff, length_le_iff]

theorem lt_two_pow_two_pow {m k : Nat} (h : m < 2 ^ k) (hk : k ≤ 2 ^ 31) : m < 2 ^ 2 ^ 31 :=
  Nat.lt_of_lt_of_le h (Nat.pow_le_pow_right (by decide) hk)

theorem negSucc_eq_neg_pow_iff (x n : Nat) :
    Int.negSucc x = -((2 ^ n : Nat) : Int) ↔ x + 1 = 2 ^ n := by
  have h2 : Int.negSucc x = -((x : Int) + 1) := rfl
  omega

theorem binary_to_decimal_snoc (l : List Bool) (b : Bool) (hl : l.length ≤ 2 ^ 31) :
    binary_to_decimal (l ++ [b])
      = some (val l + b.toNat * (pow 2 (int_of_size_t l.length)).value) := by
  rw [binary_to_decimal_total, List.length_append, List.length_singleton, partial_sum,
    partial_sum_append l [b] l.length (Nat.le_refl _), partial_sum_length_eq_val l hl]
  simp [List.getD_eq_getElem?_getD]

theorem partial_sum_cons_replicate (b : Bool) (n k : Nat) :
    partial_sum (b :: List.replicate n false) (k + 1) = b.toNat := by
  induction k with
  | zero => simp [partial_sum, pow_two_small (by decide : 0 < 2 ^ 31)]
  | succ k ih =>
    rw [partial_sum, ih]
    by_cases h : k < n
    · simp [List.getD_eq_getElem?_getD, List.getElem?_replicate, h]
    · simp [List.getD_eq_getElem?_getD, List.getElem?_replicate, h]

theorem val_replicate_true (k : Nat) : val (List.replicate k true) = 2 ^ k - 1 := by
  induction k with
  | zero => rfl
  | succ k ih =>
    have hp : 0 < 2 ^ k := Nat.two_pow_pos k
    rw [List.replicate_succ, val, ih, pow_succ]
    simp only [Bool.toNat_true]
    omega

theorem val_zeros_one (k : Nat) : val (List.replicate k false ++ [true]) = 2 ^ k := by
  rw [val_append, val_replicate_false, List.length_replicate]; simp

theorem decimal_to_binary_two_pow (k : Nat) :
    decimal_to_binary (2 ^ k) = List.replicate k false ++ [true] := by
  have h := decimal_to_binary_val (List.replicate k false ++ [true])
    (Or.inr (List.getLast?_concat _))
  rw [val_zeros_one] at h
  exact h

theorem binary_to_decimal_zeros_one (k : Nat) (hk : k ≤ 2 ^ 31)
    (hz : (pow 2 (int_of_size_t k)).value = 0) :
    binary_to_decimal (List.replicate k false ++ [true]) = some 0 := by
  rw [binary_to_decimal_snoc _ _ (by rw [List.length_replicate]; exact hk),
    val_replicate_false, List.length_replicate, hz]
  rfl

/-- A vector whose only set bit is at index `k` is given the value of
`pow(BigInt(2), (int)k)`, whatever `k` is. -/
theorem binary_to_decimal_zeros_one_any (k : Nat) :
    binary_to_decimal (List.replicate k false ++ [true])
      = some ((pow 2 (int_of_size_t k)).value) := by
  rw [binary_to_decimal_total, List.length_append, List.length_singleton,
    List.length_replicate, partial_sum,
    partial_sum_append (List.replicate k false) [true] k (by rw [List.length_replicate]),
    partial_sum_replicate_false]
  simp [List.getD_eq_getElem?_getD]

/-- At the magnitude `2^(2^32)` the index `2^32` of the only set bit converts to
the `int` 0, and `binary_to_decimal` returns `pow(2, 0) = 1`. -/
theorem round_trip_at_two_pow_32 :
    binary_to_decimal (decimal_to_binary (2 ^ 2 ^ 32)) = some 1 := by
  rw [decimal_to_binary_two_pow, binary_to_decimal_zeros_one_any]
  exact congrArg some (by decide)

theorem binary_to_decimal_ones (k : Nat) (hk : k ≤ 2 ^ 31)
    (hz : (pow 2 (int_of_size_t k)).value = 0) :
    binary_to_decimal (List.replicate k true ++ [true]) = some (2 ^ k - 1) := by
  rw [binary_to_decimal_snoc _ _ (by rw [List.length_replicate]; exact hk),
    val_replicate_true, List.length_replicate, hz]
  rfl

theorem binary_to_decimal_one_zeros (k : Nat) :
    binary_to_decimal (true :: List.replicate k false) = some 1 := by
  rw [binary_to_decimal_total, List.length_cons, partial_sum_cons_replicate]
  rfl

theorem twos_complement_ones (k : Nat) :
    twos_complement (List.replicate k true ++ [true])
      = some (true :: List.replicate k false) := by
  rw [twos_complement_eq]
  congr 1
  apply val_injective
  · rw [length_twos_complement]; simp
  · have hp : 0 < 2 ^ k := Nat.two_pow_pos k
    rw [val_twos_complement, val_append, val_replicate_true, List.length_append,
      List.length_replicate, List.length_singleton, val, val_replicate_false, pow_succ]
    simp only [Bool.toNat_true]
    rw [show 2 ^ k * 2 - (2 ^ k - 1 + 1 * 2 ^ k) = 1 by omega]
    exact Nat.mod_eq_of_lt (by omega)

theorem twos_complement_zeros_one (k : Nat) :
    twos_complement (List.replicate k false ++ [true])
      = some (List.replicate k false ++ [true]) := by
  rw [twos_complement_eq]
  congr 1
  apply val_injective
  · rw [length_twos_complement]
  · have hp : 0 < 2 ^ k := Nat.two_pow_pos k
    rw [val_twos_complement, val_zeros_one, List.length_append, List.length_replicate,
      List.length_singleton, pow_succ]
    rw [show 2 ^ k * 2 - 2 ^ k = 2 ^ k by omega]
    exact Nat.mod_eq_of_lt (by omega)

theorem zipWith_or_zeros (l : List Bool) :
    List.zipWith (fun a b => a || b) l (List.replicate l.length false) = l := by
  induction l with
  | nil => rfl
  | cons a l ih => simp [List.replicate_succ, ih]

theorem extend_nil (l : List Bool) (b : Bool) :
    extend (l ++ [b]) [] = (l ++ [b], List.replicate (l.length + 1) false) := by
  simp [extend]

theorem not_in_range_of_lt (x n : Int) (hx : x < LLONG_MIN) :
    in_long_long_range (BigInt.ofInt x) (BigInt.ofInt n) = false := by
  simp only [in_long_long_range, toInt_ofInt, Bool.and_eq_false_iff, decide_eq_false_iff_not]
  left; right; omega

theorem two_pow_gt_llong_max (k : Nat) (hk : 63 ≤ k) : LLONG_MAX < ((2 ^ k : Nat) : Int) := by
  have h : 2 ^ 63 ≤ 2 ^ k := Nat.pow_le_pow_right (by decide) hk
  unfold LLONG_MAX
  omega

/-- With a bit vector of `k + 1` elements, where the conversion of the index `k`
to `int` makes the power vanish, `2^k | 0` comes out as 0. -/
theorem or_two_pow_zero (k : Nat) (h63 : 63 ≤ k) (hk : k ≤ 2 ^ 31)
    (hz : (pow 2 (int_of_size_t k)).value = 0) :
    (BigInt.ofInt ((2 ^ k : Nat) : Int)).or (BigInt.ofInt 0) = some (BigInt.ofInt 0) := by
  have hc : ('+' = '-') = False := by decide
  have hv : (BigInt.ofInt ((2 ^ k : Nat) : Int)).value = 2 ^ k := by
    rw [ofInt_value, Int.natAbs_ofNat]
  have hs : ¬ ((BigInt.ofInt ((2 ^ k : Nat) : Int)).sign = '-') := by
    rw [ofInt_sign_neg]; exact Int.not_lt.mpr (Int.ofNat_nonneg _)
  have h0v : (BigInt.ofInt 0).value = 0 := rfl
  have h0s : ¬ ((BigInt.ofInt 0).sign = '-') := by decide
  have hd0 : decimal_to_binary 0 = [] := rfl
  unfold BigInt.or
  rw [not_in_range_of_gt _ 0 (two_pow_gt_llong_max k h63)]
  simp only [Bool.false_eq_true, if_false, BigInt.or_slow, hv, h0v, decimal_to_binary_two_pow,
    hd0, extend_nil, hs, h0s, or_self, Option.bind_eq_bind, Option.some_bind]
  rw [elementwise_eq _ _ _ (by simp), Option.some_bind]
  have hz2 := zipWith_or_zeros (List.replicate k false ++ [true])
  simp only [List.length_append, List.length_replicate, List.length_singleton] at hz2
  rw [List.length_replicate, hz2, binary_to_decimal_zeros_one k hk hz, Option.some_bind]
  rfl

/-- With a bit vector of `k + 1` elements, where the conversion of the index `k`
to `int` makes the power vanish, `-2^k | 0` comes out as 0. -/
theorem or_neg_two_pow_zero (k : Nat) (h63 : 64 ≤ k) (hk : k ≤ 2 ^ 31)
    (hz : (pow 2 (int_of_size_t k)).value = 0) :
    (BigInt.ofInt (-((2 ^ k : Nat) : Int))).or (BigInt.ofInt 0) = some (BigInt.ofInt 0) := by
  have hp : 0 < 2 ^ k := Nat.two_pow_pos k
  have hv : (BigInt.ofInt (-((2 ^ k : Nat) : Int))).value = 2 ^ k := by
    rw [ofInt_value, Int.natAbs_neg, Int.natAbs_ofNat]
  have hs : (BigInt.ofInt (-((2 ^ k : Nat) : Int))).sign = '-' := by
    rw [ofInt_sign_neg]; omega
  have h0v : (BigInt.ofInt 0).value = 0 := rfl
  have h0s : ¬ ((BigInt.ofInt 0).sign = '-') := by decide
  have hd0 : decimal_to_binary 0 = [] := rfl
  have hlt : -((2 ^ k : Nat) : Int) < LLONG_MIN := by
    have h : 2 ^ 64 ≤ 2 ^ k := Nat.pow_le_pow_right (by decide) h63
    unfold LLONG_MIN
    omega
  unfold BigInt.or
  rw [not_in_range_of_lt _ 0 hlt]
  simp only [Bool.false_eq_true, if_false, BigInt.or_slow, hv, h0v, decimal_to_binary_two_pow,
    hd0, extend_nil, hs, h0s, or_false, if_true, twos_complement_zeros_one,
    Option.bind_eq_bind, Option.some_bind]
  rw [elementwise_eq _ _ _ (by simp), Option.some_bind]
  have hz2 := zipWith_or_zeros (List.replicate k false ++ [true])
  simp only [List.length_append, List.length_replicate, List.length_singleton] at hz2
  rw [List.length_replicate, hz2, twos_complement_zeros_one, Option.some_bind, binary_to_decimal_zeros_one k hk hz,
    Option.some_bind]
  rfl

/-! ## The native shifts -/

theorem ofBits64_eq_bmod (x : Nat) : ofBits64 x = Int.bmod (x : Int) (2 ^ 64) := by
  unfold ofBits64
  rw [Int.bmod_def]
  have h1 : ((x % 2 ^ 64 : Nat) : Int) = (x : Int) % ((2 ^ 64 : Nat) : Int) := by
    rw [Int.ofNat_emod]
  rw [h1]
  have h2 : ((2 ^ 64 : Nat) : Int) = 18446744073709551616 := by norm_num
  rw [h2]
  by_cases h : x % 2 ^ 64 < 2 ^ 63
  · rw [if_pos h, if_pos (by omega)]
  · rw [if_neg h, if_neg (by omega)]; omega

theorem toBits64_cast (a : Int) : ((toBits64 a : Nat) : Int) = a % ((2 ^ 64 : Nat) : Int) := by
  unfold toBits64
  have h2 : ((2 ^ 64 : Nat) : Int) = 18446744073709551616 := by norm_num
  rw [h2]
  omega

/-- The native `<<` with a count from 0 to 63 returns the `long long` that is
congruent to `a * 2^n` modulo `2^64`. -/
theorem native_shl_eq (a n : Int) (hn : 0 ≤ n ∧ n ≤ 63) :
    native_shl a n = some (Int.bmod (a * 2 ^ n.toNat) (2 ^ 64)) := by
  unfold native_shl
  rw [if_pos ⟨hn.1, by omega⟩, ofBits64_eq_bmod]
  apply congrArg some
  have e : ((2 ^ n.toNat : Nat) : Int) = (2 : Int) ^ n.toNat := by norm_cast
  rw [Nat.cast_mul, toBits64_cast, e]
  exact Int.emod_mul_bmod_congr a (2 ^ 64)

theorem bmod_64_range (x : Int) :
    LLONG_MIN ≤ Int.bmod x (2 ^ 64) ∧ Int.bmod x (2 ^ 64) ≤ LLONG_MAX ∧
      (Int.bmod x (2 ^ 64) - x) % 2 ^ 64 = 0 := by
  unfold LLONG_MIN LLONG_MAX
  rw [Int.bmod_def]
  have h2 : ((2 ^ 64 : Nat) : Int) = 18446744073709551616 := by norm_num
  rw [h2]
  split <;> omega

theorem bmod_64_of_range (x : Int) (h : LLONG_MIN ≤ x ∧ x ≤ LLONG_MAX) :
    Int.bmod x (2 ^ 64) = x := by
  unfold LLONG_MIN LLONG_MAX at h
  rw [Int.bmod_def]
  have h2 : ((2 ^ 64 : Nat) : Int) = 18446744073709551616 := by norm_num
  rw [h2]
  split <;> omega

/-- The native `>>` with a count from 0 to 63 returns the floor of the quotient
by `2^n`, which is the arithmetic shift of the two's complement representation. -/
theorem native_shr_eq (a n : Int) (hn : 0 ≤ n ∧ n ≤ 63) :
    native_shr a n = some (a / 2 ^ n.toNat) ∧ a / 2 ^ n.toNat = a >>> n.toNat := by
  unfold native_shr
  rw [if_pos ⟨hn.1, by omega⟩, Int.shiftRight_eq_div_pow]
  exact ⟨rfl, by norm_cast⟩

theorem lor_cast_zero (x : Nat) : Int.lor ((x : Nat) : Int) 0 = ((x : Nat) : Int) := by
  show ((x ||| 0 : Nat) : Int) = _
  rw [Nat.or_zero]

theorem negation_ones_ne_one (k : Nat) (hk : 1 ≤ k) :
    (2 ^ (List.replicate k true ++ [true]).length - (2 ^ k - 1))
      % 2 ^ (List.replicate k true ++ [true]).length ≠ 1 := by
  have hp : 2 ≤ 2 ^ k := by
    have := Nat.pow_le_pow_right (by decide : 0 < 2) hk
    simpa using this
  rw [List.length_append, List.length_replicate, List.length_singleton, pow_succ]
  rw [Nat.mod_eq_of_lt (by omega)]
  omega

/-! ## The claims -/

/-- Claim C1, as stated, fails: the magnitude `2^(2^31)` has a bit vector of
`2^31 + 1` elements, the index `2^31` of its only set bit converts to the `int`
`-2^31`, the power vanishes, and `binary_to_decimal` returns 0. -/
theorem C1_round_trip_counterexample :
    binary_to_decimal (decimal_to_binary (2 ^ 2 ^ 31)) = some 0 ∧
    binary_to_decimal (decimal_to_binary (2 ^ 2 ^ 31)) ≠ some (2 ^ 2 ^ 31) := by
  have h : binary_to_decimal (decimal_to_binary (2 ^ 2 ^ 31)) = some 0 := by
    rw [decimal_to_binary_two_pow]
    exact binary_to_decimal_zeros_one (2 ^ 31) (Nat.le_refl _) (by decide)
  refine ⟨h, ?_⟩
  rw [h]
  intro e
  exact absurd (Option.some.inj e) (Nat.ne_of_lt (Nat.two_pow_pos _))

/-- Claim C1, amended: converting a magnitude below `2^(2^31)` (a bit vector of
at most `2^31` elements) to its bit vector and back gives the magnitude again;
the bit vector of zero is empty. -/
theorem C1_round_trip (m : Nat) (h : m < 2 ^ 2 ^ 31) :
    binary_to_decimal (decimal_to_binary m) = some m ∧ decimal_to_binary 0 = [] := by
  refine ⟨?_, rfl⟩
  rw [binary_to_decimal_eq _ ((length_le_iff m (2 ^ 31)).mpr h), val_decimal_to_binary]

/-- Claim C1, amended, at the magnitude 6. -/
theorem C1_round_trip_witness :
    (6 : Nat) < 2 ^ 2 ^ 31 ∧
    (binary_to_decimal (decimal_to_binary 6) = some 6 ∧ decimal_to_binary 0 = []) :=
  ⟨lt_two_pow_two_pow (k := 3) (by decide) (by decide),
    C1_round_trip 6 (lt_two_pow_two_pow (k := 3) (by decide) (by decide))⟩

/-- Claim C2, as stated, fails: `2^(2^31) | 0` takes the bit-vector path with
`2^31 + 1` elements, the index `2^31` of the only set bit converts to the `int`
`-2^31`, the power vanishes, and `operator|` returns 0, where the bitwise OR is
`2^(2^31)`. -/
theorem C2_or_counterexample :
    (BigInt.ofInt ((2 ^ 2 ^ 31 : Nat) : Int)).or (BigInt.ofInt 0) = some (BigInt.ofInt 0) ∧
    Int.lor ((2 ^ 2 ^ 31 : Nat) : Int) 0 = ((2 ^ 2 ^ 31 : Nat) : Int) ∧
    (0 : Int) < ((2 ^ 2 ^ 31 : Nat) : Int) :=
  ⟨or_two_pow_zero (2 ^ 31) (by decide) (Nat.le_refl _) (by decide),
    lor_cast_zero (2 ^ 2 ^ 31), Int.ofNat_lt.mpr (Nat.two_pow_pos _)⟩

/-- Claim C2, amended: for all integers of any sign whose magnitudes are below
`2^(2^31)` (bit vectors of at most `2^31` elements), `operator|` returns the
bitwise OR of the two's complement representations, and so does its bit-vector
pipeline taken alone; bit `i` of the result is the OR of the bits `i` of the
operands; and `5 | 3 = 7`. -/
theorem C2_or_correct (a b : Int) (ha : a.natAbs < 2 ^ 2 ^ 31) (hb : b.natAbs < 2 ^ 2 ^ 31) :
    (BigInt.ofInt a).or (BigInt.ofInt b) = some (BigInt.ofInt (Int.lor a b)) ∧
    (BigInt.ofInt a).or_slow (BigInt.ofInt b) = some (BigInt.ofInt (Int.lor a b)) ∧
    (∀ i : Nat, (Int.lor a b).testBit i = (a.testBit i || b.testBit i)) ∧
    (BigInt.ofInt 5).or (BigInt.ofInt 3) = some (BigInt.ofInt 7) :=
  ⟨or_eq a b ((width_le_iff a b (2 ^ 31)).mpr ⟨ha, hb⟩),
    or_slow_eq a b ((width_le_iff a b (2 ^ 31)).mpr ⟨ha, hb⟩),
    fun i => Int.testBit_lor a b i, by decide⟩

/-- Claim C2, amended, at the operands `-2^64` (outside the `long long` range, so
that the bit-vector path runs) and 3. -/
theorem C2_or_correct_witness :
    (-18446744073709551616 : Int).natAbs < 2 ^ 2 ^ 31 ∧ (3 : Int).natAbs < 2 ^ 2 ^ 31 ∧
    ((BigInt.ofInt (-18446744073709551616)).or (BigInt.ofInt 3)
        = some (BigInt.ofInt (Int.lor (-18446744073709551616) 3)) ∧
     (BigInt.ofInt (-18446744073709551616)).or_slow (BigInt.ofInt 3)
        = some (BigInt.ofInt (Int.lor (-18446744073709551616) 3)) ∧
     (∀ i : Nat, (Int.lor (-18446744073709551616) 3).testBit i
        = ((-18446744073709551616 : Int).testBit i || (3 : Int).testBit i)) ∧
     (BigInt.ofInt 5).or (BigInt.ofInt 3) = some (BigInt.ofInt 7)) :=
  ⟨lt_two_pow_two_pow (k := 65) (by decide) (by decide),
    lt_two_pow_two_pow (k := 2) (by decide) (by decide),
    C2_or_correct (-18446744073709551616) 3
      (lt_two_pow_two_pow (k := 65) (by decide) (by decide))
      (lt_two_pow_two_pow (k := 2) (by decide) (by decide))⟩

set_option maxRecDepth 100000 in
/-- Claim C3: at `-2^64` and `-(2^64 + 1)`, both outside the `long long` range,
`operator&` returns 0, while the bitwise AND of the two's complement
representations is `-2^65`. -/
theorem C3_and_at_failing_input :
    (BigInt.ofInt (-18446744073709551616)).and (BigInt.ofInt (-18446744073709551617))
      = some (BigInt.ofInt 0) ∧
    Int.land (-18446744073709551616) (-18446744073709551617) = -36893488147419103232 := by
  decide

set_option maxRecDepth 100000 in
/-- Claim C4: at `-1` and `2^64 - 1`, the second outside the `long long` range,
`operator^` returns 0, while the bitwise XOR of the two's complement
representations is `-2^64`. -/
theorem C4_xor_at_failing_input :
    (BigInt.ofInt (-1)).xor (BigInt.ofInt 18446744073709551615) = some (BigInt.ofInt 0) ∧
    Int.xor (-1) 18446744073709551615 = -18446744073709551616 := by
  decide

/-- Claim C5: for every integer `x`, `operator~` returns `-x - 1`; in particular
`~0 = -1` and `~(-1) = 0`. -/
theorem C5_not_correct (x : Int) :
    (BigInt.ofInt x).not = BigInt.ofInt (-x - 1) ∧
    (BigInt.ofInt 0).not = BigInt.ofInt (-1) ∧
    (BigInt.ofInt (-1)).not = BigInt.ofInt 0 :=
  ⟨not_eq x, by decide, by decide⟩

/-- Claim C7: `1 << 63` takes the fast path and returns `-2^63`, not `2^63`; and
`1 << 100` takes the fast path too, where a native shift by 100 is undefined. -/
theorem C7_shl_at_failing_input :
    (BigInt.ofInt 1).shl (BigInt.ofInt 63) = some (BigInt.ofInt (-9223372036854775808)) ∧
    (1 : Int) * 2 ^ 63 = 9223372036854775808 ∧
    in_long_long_range (BigInt.ofInt 1) (BigInt.ofInt 100) = true ∧
    (BigInt.ofInt 1).shl (BigInt.ofInt 100) = none := by
  decide

/-- Claim C8: `1 >> 64` takes the fast path, where a native shift by 64 is
undefined, while the quotient of 1 by `2^64` is 0; beyond the `long long` range
the division is used, and `2^100 >> 100 = 1`. -/
theorem C8_shr_at_failing_input :
    in_long_long_range (BigInt.ofInt 1) (BigInt.ofInt 64) = true ∧
    (BigInt.ofInt 1).shr (BigInt.ofInt 64) = none ∧
    (1 : Int) / 2 ^ 64 = 0 ∧
    (BigInt.ofInt 1267650600228229401496703205376).shr (BigInt.ofInt 100)
      = some (BigInt.ofInt 1) := by
  decide

set_option maxRecDepth 100000 in
/-- Claim C9: at `2^100` and `-2^100`, exactly one of them negative, `operator^`
returns 0, which is not negative; the bitwise XOR of the two's complement
representations is `-2^101`. -/
theorem C9_xor_sign_at_failing_input :
    (BigInt.ofInt 1267650600228229401496703205376).xor
        (BigInt.ofInt (-1267650600228229401496703205376)) = some (BigInt.ofInt 0) ∧
    ¬ ((BigInt.ofInt 0).toInt < 0) ∧
    Int.xor 1267650600228229401496703205376 (-1267650600228229401496703205376)
      = -2535301200456458802993406410752 := by
  decide

set_option maxRecDepth 100000 in
/-- Claim C10: at `-2^100` and `-(2^100 + 1)`, both negative, `operator&` returns
0, which is not negative; the bitwise AND of the two's complement
representations is `-2^101`. -/
theorem C10_and_sign_at_failing_input :
    (BigInt.ofInt (-1267650600228229401496703205376)).and
        (BigInt.ofInt (-1267650600228229401496703205377)) = some (BigInt.ofInt 0) ∧
    ¬ ((BigInt.ofInt 0).toInt < 0) ∧
    Int.land (-1267650600228229401496703205376) (-1267650600228229401496703205377)
      = -2535301200456458802993406410752 := by
  decide

/-- Claim C11, as stated, fails: `-2^(2^31) | 0` takes the bit-vector path with
`2^31 + 1` elements, the index `2^31` of the only set bit converts to the `int`
`-2^31`, the power vanishes, and `operator|` returns 0, which is not negative
though the first operand is. -/
theorem C11_or_sign_counterexample :
    (BigInt.ofInt (-((2 ^ 2 ^ 31 : Nat) : Int))).or (BigInt.ofInt 0)
      = some (BigInt.ofInt 0) ∧
    ¬ ((BigInt.ofInt 0).toInt < 0) ∧
    -((2 ^ 2 ^ 31 : Nat) : Int) < 0 :=
  ⟨or_neg_two_pow_zero (2 ^ 31) (by decide) (Nat.le_refl _) (by decide), by decide,
    Int.neg_neg_of_pos (Int.ofNat_lt.mpr (Nat.two_pow_pos _))⟩

/-- Claim C11, amended: for all integers whose magnitudes are below `2^(2^31)`
(bit vectors of at most `2^31` elements), the result of `operator|` (and of its
bit-vector pipeline taken alone) is negative exactly when one of the operands is
negative. -/
theorem C11_or_sign (a b : Int) (ha : a.natAbs < 2 ^ 2 ^ 31) (hb : b.natAbs < 2 ^ 2 ^ 31) :
    ∃ r : BigInt, (BigInt.ofInt a).or (BigInt.ofInt b) = some r ∧
      (BigInt.ofInt a).or_slow (BigInt.ofInt b) = some r ∧
      (r.toInt < 0 ↔ (a < 0 ∨ b < 0)) ∧ (r.sign = '-' ↔ (a < 0 ∨ b < 0)) :=
  ⟨BigInt.ofInt (Int.lor a b), or_eq a b ((width_le_iff a b (2 ^ 31)).mpr ⟨ha, hb⟩),
    or_slow_eq a b ((width_le_iff a b (2 ^ 31)).mpr ⟨ha, hb⟩),
    by rw [toInt_ofInt]; exact lor_neg_iff a b,
    by rw [ofInt_sign_neg]; exact lor_neg_iff a b⟩

/-- Claim C11, amended, at the operands `2^100` and `-2^100`. -/
theorem C11_or_sign_witness :
    (1267650600228229401496703205376 : Int).natAbs < 2 ^ 2 ^ 31 ∧
    (-1267650600228229401496703205376 : Int).natAbs < 2 ^ 2 ^ 31 ∧
    ∃ r : BigInt,
      (BigInt.ofInt 1267650600228229401496703205376).or
        (BigInt.ofInt (-1267650600228229401496703205376)) = some r ∧
      (BigInt.ofInt 1267650600228229401496703205376).or_slow
        (BigInt.ofInt (-1267650600228229401496703205376)) = some r ∧
      (r.toInt < 0 ↔ ((1267650600228229401496703205376 : Int) < 0 ∨
        (-1267650600228229401496703205376 : Int) < 0)) ∧
      (r.sign = '-' ↔ ((1267650600228229401496703205376 : Int) < 0 ∨
        (-1267650600228229401496703205376 : Int) < 0)) :=
  ⟨lt_two_pow_two_pow (k := 101) (by decide) (by decide),
    lt_two_pow_two_pow (k := 101) (by decide) (by decide),
    C11_or_sign 1267650600228229401496703205376 (-1267650600228229401496703205376)
      (lt_two_pow_two_pow (k := 101) (by decide) (by decide))
      (lt_two_pow_two_pow (k := 101) (by decide) (by decide))⟩

/-- Claim C12: for operands within the `long long` range the operators return the
result of the native 64-bit operation: `|`, `&` and `^` the native bitwise
result, which is the bitwise operation on the two's complement representations;
`<<` with a count `n` from 0 to 63 the native shift, which is the `long long`
congruent to `a * 2^n` modulo `2^64`, hence `a * 2^n` itself when that is a
`long long`; `>>` with such a count the native shift, which is the floor of
`a / 2^n`, the arithmetic shift. -/
theorem C12_native_ground_truth (a b n : Int) (ha : LLONG_MIN ≤ a ∧ a ≤ LLONG_MAX)
    (hb : LLONG_MIN ≤ b ∧ b ≤ LLONG_MAX) (hn : 0 ≤ n ∧ n ≤ 63) :
    ((BigInt.ofInt a).or (BigInt.ofInt b) = some (BigInt.ofInt (native_or a b)) ∧
     (BigInt.ofInt a).and (BigInt.ofInt b) = some (BigInt.ofInt (native_and a b)) ∧
     (BigInt.ofInt a).xor (BigInt.ofInt b) = some (BigInt.ofInt (native_xor a b))) ∧
    (native_or a b = Int.lor a b ∧ native_and a b = Int.land a b ∧
     native_xor a b = Int.xor a b) ∧
    (native_shl a n = some (Int.bmod (a * 2 ^ n.toNat) (2 ^ 64)) ∧
     (BigInt.ofInt a).shl (BigInt.ofInt n)
       = some (BigInt.ofInt (Int.bmod (a * 2 ^ n.toNat) (2 ^ 64))) ∧
     LLONG_MIN ≤ Int.bmod (a * 2 ^ n.toNat) (2 ^ 64) ∧
     Int.bmod (a * 2 ^ n.toNat) (2 ^ 64) ≤ LLONG_MAX ∧
     (Int.bmod (a * 2 ^ n.toNat) (2 ^ 64) - a * 2 ^ n.toNat) % 2 ^ 64 = 0 ∧
     ((LLONG_MIN ≤ a * 2 ^ n.toNat ∧ a * 2 ^ n.toNat ≤ LLONG_MAX) →
       (BigInt.ofInt a).shl (BigInt.ofInt n) = some (BigInt.ofInt (a * 2 ^ n.toNat)))) ∧
    (native_shr a n = some (a / 2 ^ n.toNat) ∧
     (BigInt.ofInt a).shr (BigInt.ofInt n) = some (BigInt.ofInt (a / 2 ^ n.toNat)) ∧
     a / 2 ^ n.toNat = a >>> n.toNat) := by
  have hnr : LLONG_MIN ≤ n ∧ n ≤ LLONG_MAX := by
    unfold LLONG_MIN LLONG_MAX; omega
  have hf := fast_path a b ha hb
  have hs := fast_path a n ha hnr
  have hl := native_shl_eq a n hn
  have hr := native_shr_eq a n hn
  have hm := bmod_64_range (a * 2 ^ n.toNat)
  refine ⟨⟨hf.1, hf.2.1, hf.2.2.1⟩,
    ⟨native_or_eq a b ha hb, native_and_eq a b ha hb, native_xor_eq a b ha hb⟩,
    ⟨hl, ?_, hm.1, hm.2.1, hm.2.2, ?_⟩, ⟨hr.1, ?_, hr.2⟩⟩
  · rw [hs.2.2.2.1, hl]; rfl
  · intro hfit
    rw [hs.2.2.2.1, hl, bmod_64_of_range _ hfit]; rfl
  · rw [hs.2.2.2.2, hr.1]; rfl

/-- Claim C12, at the operands -5 and 3 and the shift count 2. -/
theorem C12_native_ground_truth_witness :
    (LLONG_MIN ≤ (-5 : Int) ∧ (-5 : Int) ≤ LLONG_MAX) ∧
    (LLONG_MIN ≤ (3 : Int) ∧ (3 : Int) ≤ LLONG_MAX) ∧
    ((0 : Int) ≤ 2 ∧ (2 : Int) ≤ 63) ∧
    (((BigInt.ofInt (-5)).or (BigInt.ofInt 3) = some (BigInt.ofInt (native_or (-5) 3)) ∧
      (BigInt.ofInt (-5)).and (BigInt.ofInt 3) = some (BigInt.ofInt (native_and (-5) 3)) ∧
      (BigInt.ofInt (-5)).xor (BigInt.ofInt 3) = some (BigInt.ofInt (native_xor (-5) 3))) ∧
     (native_or (-5) 3 = Int.lor (-5) 3 ∧ native_and (-5) 3 = Int.land (-5) 3 ∧
      native_xor (-5) 3 = Int.xor (-5) 3) ∧
     (native_shl (-5) 2 = some (Int.bmod (-5 * 2 ^ (2 : Int).toNat) (2 ^ 64)) ∧
      (BigInt.ofInt (-5)).shl (BigInt.ofInt 2)
        = some (BigInt.ofInt (Int.bmod (-5 * 2 ^ (2 : Int).toNat) (2 ^ 64))) ∧
      LLONG_MIN ≤ Int.bmod (-5 * 2 ^ (2 : Int).toNat) (2 ^ 64) ∧
      Int.bmod (-5 * 2 ^ (2 : Int).toNat) (2 ^ 64) ≤ LLONG_MAX ∧
      (Int.bmod (-5 * 2 ^ (2 : Int).toNat) (2 ^ 64) - -5 * 2 ^ (2 : Int).toNat) % 2 ^ 64 = 0 ∧
      (BigInt.ofInt (-5)).shl (BigInt.ofInt 2)
        = some (BigInt.ofInt (-5 * 2 ^ (2 : Int).toNat))) ∧
     (native_shr (-5) 2 = some (-5 / 2 ^ (2 : Int).toNat) ∧
      (BigInt.ofInt (-5)).shr (BigInt.ofInt 2) = some (BigInt.ofInt (-5 / 2 ^ (2 : Int).toNat)) ∧
      -5 / 2 ^ (2 : Int).toNat = (-5 : Int) >>> (2 : Int).toNat)) :=
  have h := C12_native_ground_truth (-5) 3 2 (by decide) (by decide) (by decide)
  ⟨by decide, by decide, by decide, h.1, h.2.1,
    ⟨h.2.2.1.1, h.2.2.1.2.1, h.2.2.1.2.2.1, h.2.2.1.2.2.2.1, h.2.2.1.2.2.2.2.1,
      h.2.2.1.2.2.2.2.2 (by decide)⟩,
    h.2.2.2⟩

/-- Claim C13: applying `twos_complement` twice gives the vector back, bit for
bit and with the same length, for every vector (those of length at least 1 and
the all-zero ones included). -/
theorem C13_twos_complement_twice (s : List Bool) :
    (twos_complement s).bind twos_complement = some s ∧
    (∃ t, twos_complement s = some t ∧ t.length = s.length) ∧
    (twos_complement [false, false, false]).bind twos_complement
      = some [false, false, false] :=
  ⟨twos_complement_twice s, ⟨_, twos_complement_eq s, length_twos_complement s⟩, by decide⟩

/-- Claim C14: the vector `decimal_to_binary` returns has the least possible
length, the ceiling of the base-2 logarithm of `m + 1` (the number of bits of
`m`): it is empty for zero, and its last element is a set bit otherwise. -/
theorem C14_minimal_length (m : Nat) :
    (decimal_to_binary m).length = Nat.clog 2 (m + 1) ∧
    (decimal_to_binary m).length = Nat.size m ∧
    decimal_to_binary 0 = [] ∧
    (decimal_to_binary (m + 1)).getLast? = some true := by
  refine ⟨?_, length_decimal_to_binary m, rfl, ?_⟩
  · rw [length_decimal_to_binary, size_eq_clog]
  · obtain ⟨l, hl⟩ := decimal_to_binary_succ m
    rw [hl, List.getLast?_concat]

/-- Claim C15: on the bit-vector path nothing fails. After the padding both
vectors have the length of the longer; the complemented operands, the result of
the elementwise loop (for any elementwise operation) and its complement keep that
length, and every step returns a value; so `operator|`, `operator&` and
`operator^` return a value. On vectors of different sizes the loop does fail. -/
theorem C15_no_failure (self num : BigInt) (op : Bool → Bool → Bool) :
    (extend (decimal_to_binary self.value) (decimal_to_binary num.value)).1.length
      = max (decimal_to_binary self.value).length (decimal_to_binary num.value).length ∧
    (extend (decimal_to_binary self.value) (decimal_to_binary num.value)).2.length
      = max (decimal_to_binary self.value).length (decimal_to_binary num.value).length ∧
    (∃ l2 r2 res t : List Bool, ∃ v w : Nat,
      (if self.sign = '-' then
          twos_complement (extend (decimal_to_binary self.value) (decimal_to_binary num.value)).1
        else some (extend (decimal_to_binary self.value) (decimal_to_binary num.value)).1)
        = some l2 ∧
      (if num.sign = '-' then
          twos_complement (extend (decimal_to_binary self.value) (decimal_to_binary num.value)).2
        else some (extend (decimal_to_binary self.value) (decimal_to_binary num.value)).2)
        = some r2 ∧
      elementwise op l2 r2 = some res ∧
      res.length
        = max (decimal_to_binary self.value).length (decimal_to_binary num.value).length ∧
      twos_complement res = some t ∧
      t.length
        = max (decimal_to_binary self.value).length (decimal_to_binary num.value).length ∧
      binary_to_decimal res = some v ∧ binary_to_decimal t = some w) ∧
    (∃ x, self.or_slow num = some x) ∧
    (∃ x, self.and_slow num = some x) ∧
    (∃ x, self.xor_slow num = some x) ∧
    elementwise (fun a b => a || b) [true] [true, false] = none := by
  have hl := extend_length (decimal_to_binary self.value) (decimal_to_binary num.value)
  refine ⟨hl.1, hl.2, ?_, or_slow_some self num, and_slow_some self num,
    xor_slow_some self num, by decide⟩
  obtain ⟨l2, h1, hl2⟩ := prepared_operand
    (extend (decimal_to_binary self.value) (decimal_to_binary num.value)).1 (self.sign = '-')
  obtain ⟨r2, h2, hr2⟩ := prepared_operand
    (extend (decimal_to_binary self.value) (decimal_to_binary num.value)).2 (num.sign = '-')
  have hlen : l2.length = r2.length := by rw [hl2, hr2, hl.1, hl.2]
  refine ⟨l2, r2, List.zipWith op l2 r2, _, _, _, h1, h2, elementwise_eq op l2 r2 hlen, ?_,
    twos_complement_eq _, ?_, binary_to_decimal_total _, binary_to_decimal_total _⟩
  · rw [length_zipWith_same op l2 r2 hlen, hl2, hl.1]
  · rw [length_twos_complement, length_zipWith_same op l2 r2 hlen, hl2, hl.1]

/-- Claim C16: `twos_complement` keeps the length of every vector; on an all-zero
vector the carry runs off the end and is dropped, the vector stays all zero. -/
theorem C16_twos_complement_length (s : List Bool) (n : Nat) :
    (∃ t, twos_complement s = some t ∧ t.length = s.length) ∧
    twos_complement (List.replicate n false) = some (List.replicate n false) :=
  ⟨⟨_, twos_complement_eq s, length_twos_complement s⟩, twos_complement_zeros n⟩

/-- Claim C17, as stated, fails: on the vector of `2^31 + 1` set bits the index
`2^31` converts to the `int` `-2^31` and the power vanishes. `twos_complement`
gives the vector of 1, `binary_to_decimal` gives `2^(2^31) - 1` before and 1
after, and 1 is not `(2^n - (2^(2^31) - 1)) % 2^n` for the length `n`. -/
theorem C17_twos_complement_counterexample :
    twos_complement (List.replicate (2 ^ 31) true ++ [true])
      = some (true :: List.replicate (2 ^ 31) false) ∧
    binary_to_decimal (List.replicate (2 ^ 31) true ++ [true]) = some (2 ^ 2 ^ 31 - 1) ∧
    binary_to_decimal (true :: List.replicate (2 ^ 31) false) = some 1 ∧
    (2 ^ (List.replicate (2 ^ 31) true ++ [true]).length - (2 ^ 2 ^ 31 - 1))
      % 2 ^ (List.replicate (2 ^ 31) true ++ [true]).length ≠ 1 :=
  ⟨twos_complement_ones (2 ^ 31),
    binary_to_decimal_ones (2 ^ 31) (Nat.le_refl _) (by decide),
    binary_to_decimal_one_zeros (2 ^ 31),
    negation_ones_ne_one (2 ^ 31) (by decide)⟩

/-- Claim C17, amended: `twos_complement` is negation modulo `2^n` on a vector of
length `n` at most `2^31`: the magnitude of the result is `(2^n - v) % 2^n` where
`v` is the magnitude of the vector; an all-zero vector of any length denotes 0
before and after. -/
theorem C17_twos_complement_negates (s : List Bool) (n : Nat) (h : s.length ≤ 2 ^ 31) :
    (∃ (t : List Bool) (v : Nat), twos_complement s = some t ∧ binary_to_decimal s = some v ∧
      binary_to_decimal t = some ((2 ^ s.length - v) % 2 ^ s.length)) ∧
    (twos_complement (List.replicate n false)).bind binary_to_decimal = some 0 ∧
    binary_to_decimal (List.replicate n false) = some 0 := by
  have hz : binary_to_decimal (List.replicate n false) = some 0 := by
    rw [binary_to_decimal_total, partial_sum_replicate_false]
  refine ⟨⟨_, _, twos_complement_eq s, binary_to_decimal_eq s h, ?_⟩, ?_, hz⟩
  · rw [binary_to_decimal_eq _ (by rw [length_twos_complement]; exact h),
      val_twos_complement]
  · rw [twos_complement_zeros, Option.some_bind, hz]

/-- Claim C17, amended, at the vector of 5 (bits 1, 0, 1) and 4 zero bits. -/
theorem C17_twos_complement_negates_witness :
    [true, false, true].length ≤ 2 ^ 31 ∧
    ((∃ (t : List Bool) (v : Nat), twos_complement [true, false, true] = some t ∧
        binary_to_decimal [true, false, true] = some v ∧
        binary_to_decimal t
          = some ((2 ^ [true, false, true].length - v) % 2 ^ [true, false, true].length)) ∧
      (twos_complement (List.replicate 4 false)).bind binary_to_decimal = some 0 ∧
      binary_to_decimal (List.replicate 4 false) = some 0) :=
  ⟨by decide, C17_twos_complement_negates [true, false, true] 4 (by decide)⟩

/-- Claim C18, as stated, fails: the vector of `2^31` zero bits followed by a set
bit ends in a set bit, yet the index `2^31` converts to the `int` `-2^31`, the
power vanishes, `binary_to_decimal` returns 0, and the bit vector of 0 is empty. -/
theorem C18_inverse_counterexample :
    (List.replicate (2 ^ 31) false ++ [true]).getLast? = some true ∧
    binary_to_decimal (List.replicate (2 ^ 31) false ++ [true]) = some 0 ∧
    decimal_to_binary 0 ≠ List.replicate (2 ^ 31) false ++ [true] :=
  ⟨List.getLast?_concat _,
    binary_to_decimal_zeros_one (2 ^ 31) (Nat.le_refl _) (by decide),
    fun e => List.append_ne_nil_of_right_ne_nil _ (List.cons_ne_nil _ _) e.symm⟩

/-- Claim C18, amended: on a vector of at most `2^31` elements that is empty or
whose last element is a set bit, `decimal_to_binary` undoes `binary_to_decimal`,
and `binary_to_decimal` returns the sum of `bit[i] * 2^i`. -/
theorem C18_inverse_on_canonical (s : List Bool) (h : s = [] ∨ s.getLast? = some true)
    (hl : s.length ≤ 2 ^ 31) :
    ∃ v : Nat, binary_to_decimal s = some v ∧ decimal_to_binary v = s ∧
      v = ∑ i in Finset.range s.length, (s.getD i false).toNat * 2 ^ i :=
  ⟨val s, binary_to_decimal_eq s hl, decimal_to_binary_val s h, val_eq_sum s⟩

/-- Claim C18, amended, at the vector of 6 (bits 0, 1, 1 from the least
significant). -/
theorem C18_inverse_on_canonical_witness :
    ([false, true, true] = [] ∨ [false, true, true].getLast? = some true) ∧
    [false, true, true].length ≤ 2 ^ 31 ∧
    ∃ v : Nat, binary_to_decimal [false, true, true] = some v ∧
      decimal_to_binary v = [false, true, true] ∧
      v = ∑ i in Finset.range [false, true, true].length,
        ([false, true, true].getD i false).toNat * 2 ^ i :=
  ⟨Or.inr rfl, by decide, C18_inverse_on_canonical [false, true, true] (Or.inr rfl) (by decide)⟩

/-- Claim C19: `operator|`, `operator&` and `operator^` are commutative, for all
operands, on the whole operator and on the bit-vector pipeline taken alone. -/
theorem C19_commutative (x y : BigInt) :
    x.or y = y.or x ∧ x.and y = y.and x ∧ x.xor y = y.xor x ∧
    x.or_slow y = y.or_slow x ∧ x.and_slow y = y.and_slow x ∧
    x.xor_slow y = y.xor_slow x :=
  ⟨or_comm_all x y, and_comm_all x y, xor_comm_all x y, or_slow_comm x y, and_slow_comm x y,
    xor_slow_comm x y⟩

set_option maxRecDepth 100000 in
/-- Claim C20: at `x = 2^64 - 1`, outside the `long long` range, `x ^ (-1)` is 0
while `~x` is `-2^64`. -/
theorem C20_xor_minus_one_at_failing_input :
    (BigInt.ofInt 18446744073709551615).xor (BigInt.ofInt (-1)) = some (BigInt.ofInt 0) ∧
    (BigInt.ofInt 18446744073709551615).not = BigInt.ofInt (-18446744073709551616) := by
  decide

end BigIntBitwise
